import Mathlib

/-!
Verification development for `main.go` of rekber-bumn.

The program reads a listing file, extracts the `vacancy_id` column, fetches one
detail record per identifier concurrently, and writes the collected records as
a comma separated file.

The embedding follows `main.go` function by function:

* `getColumnIndex` (lines 131-138);
* `getAllDetails`, identifier loading (lines 154-179): `loadVacantIDs`, then
  `loadIdentifiers` for the slice `vacantIDs[1:]`;
* `getAllDetails`, fan-out and collection (lines 176-200): a transition system
  over goroutine states, `step`, run along a schedule by `runEvents`;
* `getAllDetails` as a whole: the composition of the two;
* `parseToCSV` (lines 97-129), with `fmt.Sprintf("%v", v)` as `sprintV` and
  `csv.Writer.Write` as `csvWrite`.

Go strings are embedded as Lean strings (valid UTF-8 text); the comma is a
single byte, so splitting on it is the same on bytes and on characters.
Everything the environment decides (whether a file can be opened or created,
whether a write succeeds, what a fetch returns, in which order a map is ranged
over, how goroutines interleave) is an explicit argument.
-/

namespace Rekber

/-! ## Runtime failures and console output -/

/-- Go run-time panics that the program can raise. -/
inductive Panic where
  | indexOutOfRange
  | sliceBoundsOutOfRange
  | interfaceConversion
  | sendOnClosedChannel
  deriving DecidableEq

/-- Lines printed with `fmt.Println` by the functions modelled here. -/
inductive Msg where
  | errorReadingHeader
  | header (fields : List String)
  | columnNotFound (columnName : String)
  | columnIndexOutOfRange
  | errorCreatingFile
  | errorWritingHeaders
  | errorWritingRow
  deriving DecidableEq

/-! ## `strings.Split(s, ",")` -/

/-- Scanning loop of `strings.Split(s, ",")`: `cur` is the field read so far,
latest character first. -/
def splitCommaAux (cur : List Char) : List Char → List String
  | [] => [String.mk cur.reverse]
  | c :: cs =>
    if c = ',' then String.mk cur.reverse :: splitCommaAux [] cs
    else splitCommaAux (c :: cur) cs

/-- The call `strings.Split(s, ",")`: the fields between commas; never empty. -/
def stringsSplit (s : String) : List String :=
  splitCommaAux [] s.data

/-! ## `getColumnIndex` (lines 131-138) -/

/-- The `for i, name := range header` loop, entered at index `i`. -/
def getColumnIndexFrom (i : Nat) : List String → String → Int
  | [], _ => -1
  | name :: rest, columnName =>
    if name = columnName then (i : Int) else getColumnIndexFrom (i + 1) rest columnName

/-- The function `getColumnIndex(header, columnName)`. -/
def getColumnIndex (header : List String) (columnName : String) : Int :=
  getColumnIndexFrom 0 header columnName

/-! ## `getAllDetails`, identifier loading (lines 154-179) -/

/-- The local `columnName := "vacancy_id"` of `getAllDetails`. -/
def columnName : String := "vacancy_id"

/-- Go indexing `record[i]` with a signed index. -/
def indexAt (record : List String) (i : Int) : Except Panic String :=
  if i < 0 then .error .indexOutOfRange
  else
    match record[i.toNat]? with
    | some x => .ok x
    | none => .error .indexOutOfRange

/-- Go slicing `xs[low:]`: needs `low ≤ len(xs)`. -/
def sliceFrom {α : Type} (low : Nat) (xs : List α) : Except Panic (List α) :=
  if low ≤ xs.length then .ok (xs.drop low) else .error .sliceBoundsOutOfRange

/-- The `for scanner.Scan()` loop of lines 166-174 over the remaining data
lines, with the identifiers and the console output accumulated so far. -/
def scanRecords (columnIndex : Int) :
    List String → List String → List Msg → List Msg × Except Panic (List String)
  | [], vacantIDs, log => (log, .ok vacantIDs)
  | line :: rest, vacantIDs, log =>
    let record := stringsSplit line
    if columnIndex < (record.length : Int) then
      match indexAt record columnIndex with
      | .ok data => scanRecords columnIndex rest (vacantIDs ++ [data]) log
      | .error p => (log, .error p)
    else
      scanRecords columnIndex rest vacantIDs (log ++ [Msg.columnIndexOutOfRange])

/-- Lines 160-174 for a given header and column name: what is printed and the
`vacantIDs` slice built, or the panic raised. -/
def extractColumn (header : List String) (name : String) (dataLines : List String)
    (log : List Msg) : List Msg × Except Panic (List String) :=
  let columnIndex := getColumnIndex header name
  let log1 := if columnIndex = -1 then log ++ [Msg.columnNotFound name] else log
  scanRecords columnIndex dataLines [] log1

/-- Lines 154-174 of `getAllDetails` on the lines the scanner yields: the header
is the first line (the empty text when there is none). -/
def loadVacantIDs (lines : List String) : List Msg × Except Panic (List String) :=
  match lines with
  | [] =>
    extractColumn (stringsSplit "") columnName []
      [Msg.errorReadingHeader, Msg.header (stringsSplit "")]
  | headerLine :: dataLines =>
    extractColumn (stringsSplit headerLine) columnName dataLines
      [Msg.header (stringsSplit headerLine)]

/-- Line 179, the slice expression `vacantIDs[1:]` applied to the outcome of the
scanning loop: a panic raised earlier is passed on. -/
def discardFirst :
    List Msg × Except Panic (List String) → List Msg × Except Panic (List String)
  | (log, .ok vacantIDs) => (log, sliceFrom 1 vacantIDs)
  | (log, .error p) => (log, .error p)

/-- Lines 154-179: identifier extraction followed by `vacantIDs[1:]`, the
sequence the fan-out loop ranges over. -/
def loadIdentifiers (lines : List String) : List Msg × Except Panic (List String) :=
  discardFirst (loadVacantIDs lines)

/-- The warnings printed by the scanning loop: one per line that has at most `c`
fields. -/
def skipWarnings (c : Nat) (dataLines : List String) : List Msg :=
  (dataLines.filter fun l => decide ((stringsSplit l).length ≤ c)).map
    fun _ => Msg.columnIndexOutOfRange


/-! ## JSON values and `fmt.Sprintf("%v", v)` -/

/-- What `encoding/json` decodes into an `interface{}`: `nil`, `bool`, `float64`,
`string`, `[]interface{}` and `map[string]interface{}`. The type `ν` stands for
`float64`. A map is given by its entries; when a key is listed twice the first
entry is the binding. -/
inductive Value (ν : Type) where
  | null : Value ν
  | bool (b : Bool) : Value ν
  | num (x : ν) : Value ν
  | str (s : String) : Value ν
  | arr (xs : List (Value ν)) : Value ν
  | obj (kvs : List (String × Value ν)) : Value ν

/-- A Go `map[string]interface{}`, by its entries. -/
abbrev GoMap (ν : Type) := List (String × Value ν)

/-- The map index expression `m[k]`: the value bound to `k`, and `nil` when the
key is absent. -/
def mapIndex {ν : Type} (m : GoMap ν) (k : String) : Value ν :=
  match m.lookup k with
  | some v => v
  | none => Value.null

/-- The keys of a map, each once. -/
def mapKeys {ν : Type} (m : GoMap ν) : List String :=
  (m.map Prod.fst).dedup

/-- The order in which a `range` over a map visits the keys. The Go runtime
chooses it; here the successive choices are the numbers `picks`: each selects
one of the keys not yet visited, and when they run out the remaining keys are
visited as listed. -/
def rangeOrder {α : Type} : List Nat → List α → List α
  | _, [] => []
  | [], k :: ks => k :: ks
  | p :: ps, k :: ks =>
    match (k :: ks)[p % (ks.length + 1)]? with
    | some x => x :: rangeOrder ps ((k :: ks).eraseIdx (p % (ks.length + 1)))
    | none => k :: ks

/-- Byte-wise order of two texts, as Go compares strings. -/
def ltChars : List Char → List Char → Bool
  | _, [] => false
  | [], _ :: _ => true
  | a :: as, b :: bs =>
    if a.toNat < b.toNat then true
    else if a.toNat = b.toNat then ltChars as bs
    else false

/-- Insertion of a printed map entry into a list ordered by key; an entry with
the same key is replaced. -/
def insertEntry (e : String × String) : List (String × String) → List (String × String)
  | [] => [e]
  | x :: rest =>
    if ltChars e.1.data x.1.data then e :: x :: rest
    else if e.1 = x.1 then e :: rest
    else x :: insertEntry e rest

/-- Printed map entries ordered by key, as `fmt` orders them. -/
def sortEntries (es : List (String × String)) : List (String × String) :=
  es.foldr insertEntry []

mutual
/-- The text `fmt.Sprintf("%v", v)`; `fmtFloat` is the `%v` text of a `float64`. -/
def sprintV {ν : Type} (fmtFloat : ν → String) : Value ν → String
  | .null => "<nil>"
  | .bool b => if b then "true" else "false"
  | .num x => fmtFloat x
  | .str s => s
  | .arr xs => "[" ++ " ".intercalate (sprintList fmtFloat xs) ++ "]"
  | .obj kvs =>
    "map[" ++
      " ".intercalate ((sortEntries (sprintEntries fmtFloat kvs)).map
        fun e => e.1 ++ ":" ++ e.2) ++ "]"
/-- The `%v` texts of the elements of a slice. -/
def sprintList {ν : Type} (fmtFloat : ν → String) : List (Value ν) → List String
  | [] => []
  | v :: vs => sprintV fmtFloat v :: sprintList fmtFloat vs
/-- The keys of a map with the `%v` texts of their values. -/
def sprintEntries {ν : Type} (fmtFloat : ν → String) :
    List (String × Value ν) → List (String × String)
  | [] => []
  | (k, v) :: rest => (k, sprintV fmtFloat v) :: sprintEntries fmtFloat rest
end

/-! ## `encoding/csv`: `Writer.Write` with the default comma and line ending -/

/-- The predicate `unicode.IsSpace`. -/
def isSpace (c : Char) : Bool :=
  let n := c.toNat
  (9 ≤ n && n ≤ 13) || n = 32 || n = 133 || n = 160 || n = 5760 ||
  (8192 ≤ n && n ≤ 8202) || n = 8232 || n = 8233 || n = 8239 || n = 8287 || n = 12288

/-- The method `fieldNeedsQuotes` of `csv.Writer`. -/
def fieldNeedsQuotes (field : String) : Bool :=
  if field = "" then false
  else if field = "\\." then true
  else if field.data.any fun c => c = '\n' || c = '\r' || c = '"' || c = ',' then true
  else
    match field.data with
    | [] => false
    | r1 :: _ => isSpace r1

/-- The body of a quoted field: every quote character doubled, the rest
verbatim. -/
def quoteChars : List Char → List Char
  | [] => []
  | c :: cs => if c = '"' then '"' :: '"' :: quoteChars cs else c :: quoteChars cs

/-- A quoted field. -/
def quoteField (field : String) : String :=
  String.mk ('"' :: quoteChars field.data ++ ['"'])

/-- The text `csv.Writer` writes for one field. -/
def csvField (field : String) : String :=
  if fieldNeedsQuotes field then quoteField field else field

/-- The field loop of `Writer.Write`, entered at field number `n`: a comma
before every field but the first. -/
def writeFieldsFrom (n : Nat) : List String → String
  | [] => ""
  | field :: rest =>
    (if n > 0 then "," else "") ++ csvField field ++ writeFieldsFrom (n + 1) rest

/-- The text `writer.Write(record)` appends: the fields, then a newline. -/
def csvWrite (record : List String) : String :=
  writeFieldsFrom 0 record ++ "\n"

/-! ## `parseToCSV` (lines 97-129) -/

/-- How a call ended. -/
inductive Exit where
  | returned
  | panicked (p : Panic)
  deriving DecidableEq

/-- What a run of `parseToCSV` did: the lines printed, the records accepted by
`writer.Write` in order, and how the call ended. -/
structure CsvRun where
  log : List Msg
  written : List (List String)
  exit : Exit
  deriving DecidableEq

/-- The text of the records a run wrote. -/
def CsvRun.text (r : CsvRun) : String :=
  String.join (r.written.map csvWrite)

/-- Lines 120-123: the row of one item. `item.(map[string]interface{})` is
evaluated once per key, so it panics on a non-map only when there is a key. -/
def buildRow {ν : Type} (fmtFloat : ν → String) (item : Value ν) :
    List String → Except Panic (List String)
  | [] => .ok []
  | k :: ks =>
    match item with
    | .obj m =>
      match buildRow fmtFloat item ks with
      | .ok row => .ok (sprintV fmtFloat (mapIndex m k) :: row)
      | .error p => .error p
    | _ => .error .interfaceConversion

/-- Lines 119-128: the loop over the items; `n` counts the calls of
`writer.Write` made so far and `writeOk n` tells whether call `n` succeeds. -/
def writeRows {ν : Type} (fmtFloat : ν → String) (writeOk : Nat → Bool) (keys : List String) :
    Nat → List (Value ν) → List (List String) → CsvRun
  | _, [], written => ⟨[], written, .returned⟩
  | n, item :: rest, written =>
    match buildRow fmtFloat item keys with
    | .error p => ⟨[], written, .panicked p⟩
    | .ok row =>
      if writeOk n then writeRows fmtFloat writeOk keys (n + 1) rest (written ++ [row])
      else ⟨[Msg.errorWritingRow], written, .returned⟩

/-- The function `parseToCSV(data, path)`. `createOk` tells whether `os.Create`
succeeds, `writeOk` which calls of `writer.Write` succeed, `picks` the order of
the `range` over the first record. -/
def parseToCSV {ν : Type} (fmtFloat : ν → String) (createOk : Bool) (writeOk : Nat → Bool)
    (picks : List Nat) (data : List (Value ν)) : CsvRun :=
  if createOk then
    match data with
    | [] => ⟨[], [], .panicked .indexOutOfRange⟩
    | .obj first :: _ =>
      let keys := rangeOrder picks (mapKeys first)
      if writeOk 0 then writeRows fmtFloat writeOk keys 1 data [keys]
      else ⟨[Msg.errorWritingHeaders], [], .returned⟩
    | _ :: _ => ⟨[], [], .panicked .interfaceConversion⟩
  else ⟨[Msg.errorCreatingFile], [], .returned⟩

/-- The records of the example `[{"a":"1","b":"2"},{"a":"3","b":"4"}]`. -/
def exampleRecords : List (Value Unit) :=
  [.obj [("a", .str "1"), ("b", .str "2")], .obj [("a", .str "3"), ("b", .str "4")]]

/-! ## `getAllDetails`, fan-out and collection (lines 176-200)

The loop of line 179 starts one goroutine per identifier; each calls
`getDetailJob` and sends a non-nil result on the unbuffered `dataChan`; a further
goroutine closes the channel once the wait group reaches zero; the function
itself then receives until the channel is closed. The goroutines are a
transition system: a state, and one event per atomic action. -/

/-- Where a goroutine started at line 181 stands. -/
inductive WorkerPc where
  /-- It has not called `getDetailJob` yet (line 183). -/
  | atFetch
  /-- It is blocked in `dataChan <- detail` (line 185). -/
  | atSend
  /-- Its body is over and the deferred `wg.Done()` is due (line 182). -/
  | atDone
  /-- It has ended. -/
  | finished
  deriving DecidableEq

/-- A goroutine started at line 181: its argument `id`, its local `detail`
(`none` is the nil map), and where it stands. -/
structure Worker (ρ : Type) where
  id : String
  detail : Option ρ
  pc : WorkerPc

/-- Where `getAllDetails` itself stands. -/
inductive MainPc where
  /-- In the loop of line 179, with these identifiers still to range over. -/
  | launching (rest : List String)
  /-- In the receive loop of line 196. -/
  | draining
  /-- Past `return data` (line 200). -/
  | returned
  deriving DecidableEq

/-- Where the goroutine of lines 190-193 stands. -/
inductive CloserPc where
  | notStarted
  /-- In `wg.Wait()`. -/
  | waiting
  /-- Past `close(dataChan)`. -/
  | finished
  deriving DecidableEq

/-- The state of lines 176-200. -/
structure State (ρ : Type) where
  main : MainPc
  /-- The goroutines started so far, in start order. -/
  workers : List (Worker ρ)
  /-- The counter of `wg`. -/
  wg : Int
  closer : CloserPc
  /-- Whether `dataChan` is closed. -/
  closed : Bool
  /-- The local `data` of `getAllDetails`. -/
  data : List ρ
  /-- The identifiers `getDetailJob` was called with, in call order. -/
  calls : List String
  panicked : Option Panic

/-- The atomic actions. -/
inductive Event where
  /-- One iteration of the loop of line 179: `wg.Add(1)` and the `go` statement. -/
  | launch
  /-- The loop is over: the `go` statement of line 190, then on to line 195. -/
  | startCloser
  /-- Goroutine `i` runs lines 183-184. -/
  | fetch (i : Nat)
  /-- Goroutine `i` sends and `getAllDetails` receives and appends (lines 185,
  196-197). -/
  | deliver (i : Nat)
  /-- Goroutine `i` sends on the closed channel. -/
  | sendOnClosed (i : Nat)
  /-- Goroutine `i` runs its deferred `wg.Done()`. -/
  | wgDone (i : Nat)
  /-- The counter is zero: `wg.Wait()` returns and `dataChan` is closed. -/
  | close
  /-- The receive loop sees the closed channel; `getAllDetails` returns `data`. -/
  | finish
  deriving DecidableEq

/-- The state at line 176 for the identifiers `ids` (the slice `vacantIDs[1:]`). -/
def State.init {ρ : Type} (ids : List String) : State ρ :=
  { main := .launching ids, workers := [], wg := 0, closer := .notStarted, closed := false,
    data := [], calls := [], panicked := none }

/-- Lines 183-184 in goroutine `w`, for the result `r` of its `getDetailJob` call. -/
def Worker.afterFetch {ρ : Type} (w : Worker ρ) (r : Option ρ) : Worker ρ :=
  { w with detail := r, pc := if r.isSome then .atSend else .atDone }

/-- One atomic action, when it is enabled. `getDetailJob i id` is what the call
made by goroutine `i` for the identifier `id` returns. -/
def step {ρ : Type} (getDetailJob : Nat → String → Option ρ) (s : State ρ) :
    Event → Option (State ρ)
  | .launch =>
    match s.panicked, s.main with
    | none, .launching (id :: rest) =>
      some { s with
        main := .launching rest
        wg := s.wg + 1
        workers := s.workers ++ [{ id := id, detail := none, pc := .atFetch }] }
    | _, _ => none
  | .startCloser =>
    match s.panicked, s.main with
    | none, .launching [] => some { s with main := .draining, closer := .waiting }
    | _, _ => none
  | .fetch i =>
    match s.panicked, s.workers[i]? with
    | none, some w =>
      match w.pc with
      | .atFetch =>
        some { s with
          workers := s.workers.set i (w.afterFetch (getDetailJob i w.id))
          calls := s.calls ++ [w.id] }
      | _ => none
    | _, _ => none
  | .deliver i =>
    match s.panicked, s.main, s.closed, s.workers[i]? with
    | none, .draining, false, some w =>
      match w.pc, w.detail with
      | .atSend, some d =>
        some { s with
          workers := s.workers.set i { w with pc := .atDone }
          data := s.data ++ [d] }
      | _, _ => none
    | _, _, _, _ => none
  | .sendOnClosed i =>
    match s.panicked, s.closed, s.workers[i]? with
    | none, true, some w =>
      match w.pc with
      | .atSend => some { s with panicked := some .sendOnClosedChannel }
      | _ => none
    | _, _, _ => none
  | .wgDone i =>
    match s.panicked, s.workers[i]? with
    | none, some w =>
      match w.pc with
      | .atDone =>
        some { s with
          workers := s.workers.set i { w with pc := .finished }
          wg := s.wg - 1 }
      | _ => none
    | _, _ => none
  | .close =>
    match s.panicked, s.closer with
    | none, .waiting =>
      if s.wg = 0 then some { s with closer := .finished, closed := true } else none
    | _, _ => none
  | .finish =>
    match s.panicked, s.main with
    | none, .draining => if s.closed then some { s with main := .returned } else none
    | _, _ => none

/-- The state after a schedule, when every event of it is enabled in turn. -/
def runEvents {ρ : Type} (getDetailJob : Nat → String → Option ρ) :
    State ρ → List Event → Option (State ρ)
  | s, [] => some s
  | s, e :: es =>
    match step getDetailJob s e with
    | some t => runEvents getDetailJob t es
    | none => none

/-- The non-nil results of the fetches for `ids`, the fetch for position `i`
being call `i`. -/
def fetched {ρ : Type} (getDetailJob : Nat → String → Option ρ) (ids : List String) : List ρ :=
  ids.enum.filterMap fun p => getDetailJob p.1 p.2

/-- The state lines 176-200 of `getAllDetails` reach under a schedule: the
fan-out loop ranges over what identifier loading hands it, the slice
`vacantIDs[1:]` of `loadIdentifiers`. The result is `none` when loading panics
or when some event of the schedule is not enabled. -/
def getAllDetailsRun {ρ : Type} (lines : List String)
    (getDetailJob : Nat → String → Option ρ) (schedule : List Event) : Option (State ρ) :=
  match (loadIdentifiers lines).2 with
  | .error _ => none
  | .ok ids => runEvents getDetailJob (State.init ids) schedule

/-- The function `getAllDetails` on the lines the scanner yields, under a
schedule of its goroutines. `openOk` tells whether `os.Open` succeeds; when it
does not the function prints and returns nil. The result is `none` when the
schedule is not a run of lines 176-200 up to the return or to a panic. -/
def getAllDetails {ρ : Type} (openOk : Bool) (lines : List String)
    (getDetailJob : Nat → String → Option ρ) (schedule : List Event) :
    Option (Except Panic (List ρ)) :=
  if openOk then
    match (loadIdentifiers lines).2 with
    | .error p => some (.error p)
    | .ok _ =>
      match getAllDetailsRun lines getDetailJob schedule with
      | some s =>
        match s.panicked, s.main with
        | some p, _ => some (.error p)
        | none, .returned => some (.ok s.data)
        | none, _ => none
      | none => none
  else some (.ok [])

/-! ### Quantities used to reason about schedules -/

/-- The number of actions a goroutine still has to take. -/
def WorkerPc.rank : WorkerPc → Nat
  | .atFetch => 3
  | .atSend => 2
  | .atDone => 1
  | .finished => 0

/-- Whether a goroutine still counts in the wait group: 1 until its `wg.Done()`. -/
def Worker.active {ρ : Type} (w : Worker ρ) : Nat :=
  match w.pc with
  | .finished => 0
  | _ => 1

/-- The record a goroutine has handed over, if it has. -/
def Worker.delivered {ρ : Type} (w : Worker ρ) : Option ρ :=
  match w.pc with
  | .atDone => w.detail
  | .finished => w.detail
  | _ => none

/-- The identifier a goroutine has called `getDetailJob` with, if it has. -/
def Worker.called {ρ : Type} (w : Worker ρ) : Option String :=
  match w.pc with
  | .atFetch => none
  | _ => some w.id

/-- The identifiers the loop of line 179 has still to range over. -/
def State.pending {ρ : Type} (s : State ρ) : List String :=
  match s.main with
  | .launching rest => rest
  | _ => []

/-- An upper bound on the number of actions left in a state. -/
def State.measure {ρ : Type} (s : State ρ) : Nat :=
  (match s.main with
    | .launching rest => 4 * rest.length + 2
    | .draining => 1
    | .returned => 0) +
  (match s.closer with
    | .finished => 0
    | _ => 1) +
  (s.workers.map fun w => w.pc.rank).sum

/-- What holds in every state a schedule reaches from `State.init ids`. -/
structure Inv {ρ : Type} (getDetailJob : Nat → String → Option ρ) (ids : List String)
    (s : State ρ) : Prop where
  noPanic : s.panicked = none
  launched : s.workers.map (fun w => w.id) ++ s.pending = ids
  closerStarted : s.closer = .notStarted ↔ ∃ rest, s.main = .launching rest
  returnedClosed : s.main = .returned → s.closed = true
  counter : s.wg = (((s.workers.map fun w => w.active).sum : Nat) : Int)
  closedIff : s.closed = true ↔ s.closer = .finished
  closedZero : s.closed = true → s.wg = 0
  results : ∀ i w, s.workers[i]? = some w →
    (w.pc = .atFetch → w.detail = none) ∧
    (w.pc ≠ .atFetch → w.detail = getDetailJob i w.id) ∧
    (w.pc = .atSend → ∃ d, w.detail = some d)
  dataPerm : s.data.Perm (s.workers.filterMap fun w => w.delivered)
  callsPerm : s.calls.Perm (s.workers.filterMap fun w => w.called)

/-! ### A worked schedule -/

/-- Fetch outcomes for an example: call 1 fails, call `i` otherwise yields the
record `10 * i`. -/
def exampleFetch : Nat → String → Option Nat :=
  fun i _ => if i = 1 then none else some (10 * i)

/-- An interleaving for three identifiers: the goroutines fetch out of start
order and the last one delivers first. -/
def exampleSchedule : List Event :=
  [.launch, .launch, .fetch 1, .fetch 0, .launch, .wgDone 1, .startCloser, .fetch 2,
    .deliver 2, .deliver 0, .wgDone 0, .wgDone 2, .close, .finish]

/-- The state `exampleSchedule` ends in for the identifiers `a`, `b`, `c`. -/
def exampleFinal : State Nat :=
  { main := .returned
    workers :=
      [{ id := "a", detail := some 0, pc := .finished },
        { id := "b", detail := none, pc := .finished },
        { id := "c", detail := some 20, pc := .finished }]
    wg := 0
    closer := .finished
    closed := true
    data := [20, 0]
    calls := ["b", "a", "c"]
    panicked := none }

/-! # Theorems -/

/-! ## Facts about `getColumnIndex` -/

theorem getColumnIndexFrom_notMem (i : Nat) (header : List String) (name : String)
    (h : name ∉ header) : getColumnIndexFrom i header name = -1 := by
  induction header generalizing i with
  | nil => rfl
  | cons a rest ih =>
    have ha : a ≠ name := fun e => h (by simp [e])
    have hr : name ∉ rest := fun e => h (by simp [e])
    simp [getColumnIndexFrom, ha, ih (i + 1) hr]

theorem getColumnIndexFrom_mem (i : Nat) (header : List String) (name : String)
    (h : name ∈ header) :
    ∃ k : Nat, getColumnIndexFrom i header name = ((i + k : Nat) : Int) ∧
      header.get? k = some name ∧ ∀ j, j < k → header.get? j ≠ some name := by
  induction header generalizing i with
  | nil => simp at h
  | cons a rest ih =>
    by_cases ha : a = name
    · refine ⟨0, ?_, ?_, ?_⟩
      · simp [getColumnIndexFrom, ha]
      · simp [ha]
      · intro j hj; omega
    · have hr : name ∈ rest := by
        rcases List.mem_cons.1 h with e | e
        · exact absurd e.symm ha
        · exact e
      obtain ⟨k, hk, hget, hmin⟩ := ih (i + 1) hr
      refine ⟨k + 1, ?_, ?_, ?_⟩
      · simp only [getColumnIndexFrom, ha, if_false, hk]
        congr 1; omega
      · simpa using hget
      · intro j hj
        cases j with
        | zero => simpa using ha
        | succ j => simpa using hmin j (by omega)

theorem getColumnIndex_eq_neg_one_iff (header : List String) (name : String) :
    getColumnIndex header name = -1 ↔ name ∉ header := by
  constructor
  · intro h hmem
    obtain ⟨k, hk, _, _⟩ := getColumnIndexFrom_mem 0 header name hmem
    unfold getColumnIndex at h
    rw [hk] at h
    omega
  · exact getColumnIndexFrom_notMem 0 header name

theorem getColumnIndex_found (header : List String) (name : String) (h : name ∈ header) :
    ∃ k : Nat, getColumnIndex header name = (k : Int) ∧ k < header.length ∧
      header.get? k = some name ∧ ∀ j, j < k → header.get? j ≠ some name := by
  obtain ⟨k, hk, hget, hmin⟩ := getColumnIndexFrom_mem 0 header name h
  refine ⟨k, by simpa [getColumnIndex] using hk, ?_, hget, hmin⟩
  by_contra hlt
  rw [List.get?_eq_none.2 (by omega)] at hget
  cases hget

theorem getColumnIndex_cases (header : List String) (name : String) :
    (name ∉ header ∧ getColumnIndex header name = -1) ∨
    (name ∈ header ∧ ∃ k : Nat, getColumnIndex header name = (k : Int) ∧ k < header.length) := by
  by_cases h : name ∈ header
  · obtain ⟨k, hk, hlt, _⟩ := getColumnIndex_found header name h
    exact Or.inr ⟨h, k, hk, hlt⟩
  · exact Or.inl ⟨h, (getColumnIndex_eq_neg_one_iff header name).2 h⟩

/-- C7: `getColumnIndex` returns the smallest index holding the column name when
the name occurs in the header, returns -1 exactly when it does not occur, and a
non-negative result is a valid index into the header; for the header `id,name`
and the column name `name` the result is 1. -/
theorem getColumnIndex_first_match (header : List String) (name : String) :
    (name ∈ header →
      ∃ k : Nat, getColumnIndex header name = (k : Int) ∧ k < header.length ∧
        header.get? k = some name ∧ ∀ j, j < k → header.get? j ≠ some name) ∧
    (getColumnIndex header name = -1 ↔ name ∉ header) ∧
    (0 ≤ getColumnIndex header name → getColumnIndex header name < (header.length : Int)) ∧
    getColumnIndex ["id", "name"] "name" = 1 ∧
    getColumnIndex ["id", "name"] "missing" = -1 := by
  refine ⟨getColumnIndex_found header name, getColumnIndex_eq_neg_one_iff header name, ?_,
    by decide, by decide⟩
  intro h0
  rcases getColumnIndex_cases header name with ⟨_, h⟩ | ⟨_, k, hk, hlt⟩
  · rw [h] at h0; omega
  · rw [hk]; exact_mod_cast hlt

/-- C7 at the header `a,name,name`: the first of two matches is returned. -/
theorem getColumnIndex_first_match_witness :
    "name" ∈ ["a", "name", "name"] ∧
    ∃ k : Nat, getColumnIndex ["a", "name", "name"] "name" = (k : Int) ∧
      k < ["a", "name", "name"].length ∧
      ["a", "name", "name"].get? k = some "name" ∧
      ∀ j, j < k → ["a", "name", "name"].get? j ≠ some "name" :=
  ⟨by decide, (getColumnIndex_first_match ["a", "name", "name"] "name").1 (by decide)⟩


/-! ## Facts about identifier loading -/

theorem indexAt_natCast (record : List String) (c : Nat) :
    indexAt record (c : Int) =
      match record[c]? with
      | some x => .ok x
      | none => .error .indexOutOfRange := by
  have h : ¬ ((c : Int) < 0) := by omega
  simp [indexAt, h]

theorem indexAt_neg_one (record : List String) :
    indexAt record (-1) = .error .indexOutOfRange := by
  simp [indexAt]

theorem scanRecords_natCast (c : Nat) (dataLines acc : List String) (log : List Msg) :
    scanRecords (c : Int) dataLines acc log =
      (log ++ skipWarnings c dataLines,
        .ok (acc ++ dataLines.filterMap fun l => (stringsSplit l)[c]?)) := by
  induction dataLines generalizing acc log with
  | nil => simp [scanRecords, skipWarnings]
  | cons l rest ih =>
    by_cases hlt : c < (stringsSplit l).length
    · have hc : ((c : Int) < ((stringsSplit l).length : Int)) := by exact_mod_cast hlt
      have hget : (stringsSplit l)[c]? = some ((stringsSplit l)[c]) :=
        List.getElem?_eq_getElem hlt
      have hnle : ¬ (stringsSplit l).length ≤ c := by omega
      simp only [scanRecords, hc, if_true, indexAt_natCast, hget, ih, List.filterMap_cons]
      simp [skipWarnings, hnle]
    · have hc : ¬ ((c : Int) < ((stringsSplit l).length : Int)) := by
        intro h; exact hlt (by exact_mod_cast h)
      have hget : (stringsSplit l)[c]? = none := List.getElem?_eq_none (by omega)
      have hle : (stringsSplit l).length ≤ c := by omega
      simp only [scanRecords, hc, if_false, ih, List.filterMap_cons, hget]
      simp [skipWarnings, hle]

theorem scanRecords_neg_one (l : String) (rest acc : List String) (log : List Msg) :
    scanRecords (-1) (l :: rest) acc log = (log, .error .indexOutOfRange) := by
  have hc : ((-1 : Int) < ((stringsSplit l).length : Int)) := by omega
  simp [scanRecords, hc, indexAt_neg_one]

theorem filterMap_get?_length (c : Nat) (dataLines : List String) :
    (dataLines.filterMap fun l => (stringsSplit l)[c]?).length =
      (dataLines.filter fun l => decide (c < (stringsSplit l).length)).length := by
  induction dataLines with
  | nil => rfl
  | cons l rest ih =>
    by_cases hlt : c < (stringsSplit l).length
    · have hget : (stringsSplit l)[c]? = some ((stringsSplit l)[c]) :=
        List.getElem?_eq_getElem hlt
      simp [List.filterMap_cons, hget, hlt, ih]
    · have hget : (stringsSplit l)[c]? = none := List.getElem?_eq_none (by omega)
      simp [List.filterMap_cons, hget, hlt, ih]

theorem extractColumn_found (header : List String) (name : String) (c : Nat)
    (hc : getColumnIndex header name = (c : Int)) (dataLines : List String) (log : List Msg) :
    extractColumn header name dataLines log =
      (log ++ skipWarnings c dataLines,
        .ok (dataLines.filterMap fun l => (stringsSplit l)[c]?)) := by
  have hne : ¬ ((c : Int) = -1) := by omega
  simp [extractColumn, hc, hne, scanRecords_natCast]

theorem extractColumn_notFound_cons (header : List String) (name : String)
    (h : name ∉ header) (l : String) (rest : List String) (log : List Msg) :
    extractColumn header name (l :: rest) log =
      (log ++ [Msg.columnNotFound name], .error .indexOutOfRange) := by
  have hc := (getColumnIndex_eq_neg_one_iff header name).2 h
  simp [extractColumn, hc, scanRecords_neg_one]

theorem extractColumn_notFound_nil (header : List String) (name : String)
    (h : name ∉ header) (log : List Msg) :
    extractColumn header name [] log = (log ++ [Msg.columnNotFound name], .ok []) := by
  have hc := (getColumnIndex_eq_neg_one_iff header name).2 h
  simp [extractColumn, hc, scanRecords]

theorem sliceFrom_one_ok_iff {α : Type} (xs : List α) :
    (∃ ys, sliceFrom 1 xs = .ok ys) ↔ xs ≠ [] := by
  cases xs with
  | nil => simp [sliceFrom]
  | cons a t => simp [sliceFrom]

theorem filterMap_getElem?_ne_nil_iff (c : Nat) (dataLines : List String) :
    (dataLines.filterMap fun l => (stringsSplit l)[c]?) ≠ [] ↔
      ∃ l ∈ dataLines, c < (stringsSplit l).length := by
  induction dataLines with
  | nil => simp
  | cons l rest ih =>
    by_cases hlt : c < (stringsSplit l).length
    · have hget : (stringsSplit l)[c]? = some ((stringsSplit l)[c]) :=
        List.getElem?_eq_getElem hlt
      simp only [List.filterMap_cons, hget]
      simp only [ne_eq, reduceCtorEq, not_false_eq_true, true_iff]
      exact ⟨l, by simp, hlt⟩
    · have hget : (stringsSplit l)[c]? = none := List.getElem?_eq_none (by omega)
      simp only [List.filterMap_cons, hget, ih]
      constructor
      · rintro ⟨m, hm, hlen⟩
        exact ⟨m, List.mem_cons_of_mem _ hm, hlen⟩
      · rintro ⟨m, hm, hlen⟩
        rcases List.mem_cons.1 hm with e | e
        · subst e; exact absurd hlen hlt
        · exact ⟨m, e, hlen⟩

theorem discardFirst_extractColumn_ok_iff (header : List String) (name : String)
    (dataLines : List String) (log : List Msg) :
    (∃ ids, (discardFirst (extractColumn header name dataLines log)).2 = .ok ids) ↔
      (name ∈ header ∧
        ∃ l ∈ dataLines, getColumnIndex header name < ((stringsSplit l).length : Int)) := by
  rcases getColumnIndex_cases header name with ⟨hnot, hidx⟩ | ⟨hmem, c, hc, _⟩
  · constructor
    · rintro ⟨ids, h⟩
      cases dataLines with
      | nil =>
        rw [extractColumn_notFound_nil header name hnot] at h
        simp [discardFirst, sliceFrom] at h
      | cons l rest =>
        rw [extractColumn_notFound_cons header name hnot] at h
        simp [discardFirst] at h
    · rintro ⟨hmem, _⟩
      exact absurd hmem hnot
  · rw [extractColumn_found header name c hc]
    simp only [discardFirst, sliceFrom_one_ok_iff, filterMap_getElem?_ne_nil_iff, hc]
    constructor
    · rintro ⟨l, hl, hlen⟩
      exact ⟨hmem, l, hl, by exact_mod_cast hlen⟩
    · rintro ⟨_, l, hl, hlen⟩
      exact ⟨l, hl, by exact_mod_cast hlen⟩

theorem discardFirst_extractColumn_nil (header : List String) (name : String)
    (log : List Msg) :
    (discardFirst (extractColumn header name [] log)).2 = .error .sliceBoundsOutOfRange := by
  rcases getColumnIndex_cases header name with ⟨hnot, _⟩ | ⟨_, c, hc, _⟩
  · rw [extractColumn_notFound_nil header name hnot]
    simp [discardFirst, sliceFrom]
  · rw [extractColumn_found header name c hc]
    simp [discardFirst, sliceFrom]

/-- Whenever the header lacks the column name, identifier loading prints the
"column not found" line and then panics: on the first data line with an index
failure, or on `vacantIDs[1:]` when there is no data line. -/
theorem loadIdentifiers_column_absent (headerLine : String) (dataLines : List String)
    (h : columnName ∉ stringsSplit headerLine) :
    loadIdentifiers (headerLine :: dataLines) =
      ([Msg.header (stringsSplit headerLine), Msg.columnNotFound columnName],
        .error (if dataLines = [] then Panic.sliceBoundsOutOfRange
                else Panic.indexOutOfRange)) := by
  cases dataLines with
  | nil =>
    simp [loadIdentifiers, loadVacantIDs, extractColumn_notFound_nil _ _ h, discardFirst,
      sliceFrom]
  | cons l rest =>
    simp [loadIdentifiers, loadVacantIDs, extractColumn_notFound_cons _ _ h, discardFirst]

/-- C4 (the code departs from it): on the file `id,name` / `1,foo`, whose header
lacks `vacancy_id`, identifier loading prints the header and "column not found"
and then panics on `record[-1]`; with the header line alone it panics on
`vacantIDs[1:]`. No empty identifier sequence is produced in either case. -/
theorem loadIdentifiers_missing_column_panics :
    loadIdentifiers ["id,name", "1,foo"] =
      ([Msg.header ["id", "name"], Msg.columnNotFound "vacancy_id"],
        .error Panic.indexOutOfRange) ∧
    loadIdentifiers ["id,name"] =
      ([Msg.header ["id", "name"], Msg.columnNotFound "vacancy_id"],
        .error Panic.sliceBoundsOutOfRange) :=
  ⟨rfl, rfl⟩

/-- C6: for a column index `c ≥ 0`, the scanning loop of `getAllDetails` started
with no identifiers never panics and builds, in file order, the `c`-th
comma-split field of every line that has more than `c` fields; a line with at
most `c` fields adds one warning and no identifier, so the sequence is as long
as the number of in-range lines. -/
theorem scanRecords_in_file_order (c : Int) (hc : 0 ≤ c) (dataLines : List String)
    (log : List Msg) :
    (scanRecords c dataLines [] log).2 =
      .ok (dataLines.filterMap fun l => (stringsSplit l)[c.toNat]?) ∧
    (dataLines.filterMap fun l => (stringsSplit l)[c.toNat]?).length =
      (dataLines.filter fun l => decide (c < ((stringsSplit l).length : Int))).length ∧
    (scanRecords c dataLines [] log).1 =
      log ++ (dataLines.filter fun l => decide (((stringsSplit l).length : Int) ≤ c)).map
        fun _ => Msg.columnIndexOutOfRange := by
  obtain ⟨n, rfl⟩ := Int.eq_ofNat_of_zero_le hc
  rw [scanRecords_natCast]
  refine ⟨by simp, ?_, ?_⟩
  · simp only [Int.toNat_ofNat, filterMap_get?_length, Nat.cast_lt]
  · simp only [skipWarnings, Nat.cast_le]

/-- C6 at the lines `1,foo` / `2` / `3,bar` and column index 1: the identifiers
are `foo` and `bar`, the short line is skipped with one warning. -/
theorem scanRecords_in_file_order_witness :
    (0 : Int) ≤ 1 ∧
    (scanRecords 1 ["1,foo", "2", "3,bar"] [] []).2 = .ok ["foo", "bar"] ∧
    (scanRecords 1 ["1,foo", "2", "3,bar"] [] []).1 = [Msg.columnIndexOutOfRange] :=
  ⟨by decide,
    (scanRecords_in_file_order 1 (by decide) ["1,foo", "2", "3,bar"] []).1.trans rfl,
    (scanRecords_in_file_order 1 (by decide) ["1,foo", "2", "3,bar"] []).2.2.trans rfl⟩

theorem discardFirst_extractColumn_out_of_range (header : List String) (name : String)
    (dataLines : List String) (log : List Msg) (hmem : name ∈ header)
    (hout : ∀ l ∈ dataLines,
      ¬ getColumnIndex header name < ((stringsSplit l).length : Int)) :
    (discardFirst (extractColumn header name dataLines log)).2 =
      .error .sliceBoundsOutOfRange := by
  obtain ⟨c, hc, _, _, _⟩ := getColumnIndex_found header name hmem
  have hnil : (dataLines.filterMap fun l => (stringsSplit l)[c]?) = [] := by
    by_contra hne
    obtain ⟨l, hl, hlen⟩ := (filterMap_getElem?_ne_nil_iff c dataLines).1 hne
    exact hout l hl (by rw [hc]; exact_mod_cast hlen)
  rw [extractColumn_found header name c hc, hnil]
  simp [discardFirst, sliceFrom]

/-- C9: the identifier extraction and discard-first step of `getAllDetails`
completes without an index or slice bounds failure exactly when the header
contains `vacancy_id` and some data line has more fields than the column index.
Otherwise it panics: with the column present and every data line out of range
(in particular with no data line, or no line at all) on `vacantIDs[1:]`, with
the column absent and a data line present on `record[-1]`. -/
theorem loadIdentifiers_completes_iff (headerLine : String) (dataLines : List String) :
    ((∃ ids, (loadIdentifiers (headerLine :: dataLines)).2 = .ok ids) ↔
      (columnName ∈ stringsSplit headerLine ∧
        ∃ l ∈ dataLines,
          getColumnIndex (stringsSplit headerLine) columnName <
            ((stringsSplit l).length : Int))) ∧
    (columnName ∈ stringsSplit headerLine →
      (∀ l ∈ dataLines,
        ¬ getColumnIndex (stringsSplit headerLine) columnName <
          ((stringsSplit l).length : Int)) →
      (loadIdentifiers (headerLine :: dataLines)).2 = .error Panic.sliceBoundsOutOfRange) ∧
    (columnName ∉ stringsSplit headerLine → dataLines ≠ [] →
      (loadIdentifiers (headerLine :: dataLines)).2 = .error Panic.indexOutOfRange) ∧
    (loadIdentifiers [headerLine]).2 = .error Panic.sliceBoundsOutOfRange ∧
    (loadIdentifiers []).2 = .error Panic.sliceBoundsOutOfRange := by
  refine ⟨?_, ?_, ?_, ?_, ?_⟩
  · exact discardFirst_extractColumn_ok_iff _ _ _ _
  · exact discardFirst_extractColumn_out_of_range _ _ _ _
  · intro habs hne
    rw [loadIdentifiers_column_absent headerLine dataLines habs]
    simp [hne]
  · exact discardFirst_extractColumn_nil _ _ _
  · exact discardFirst_extractColumn_nil _ _ _

/-- C9 at the file `id,vacancy_id` / `1,foo` / `2`: one data line is in range, the
step completes, and after the discard no identifier is left. -/
theorem loadIdentifiers_completes_iff_witness :
    (columnName ∈ stringsSplit "id,vacancy_id" ∧
      ∃ l ∈ ["1,foo", "2"],
        getColumnIndex (stringsSplit "id,vacancy_id") columnName <
          ((stringsSplit l).length : Int)) ∧
    (∃ ids, (loadIdentifiers ["id,vacancy_id", "1,foo", "2"]).2 = .ok ids) ∧
    (loadIdentifiers ["id,vacancy_id", "1,foo", "2"]).2 = .ok [] :=
  ⟨⟨by decide, "1,foo", by decide, by decide⟩,
    (loadIdentifiers_completes_iff "id,vacancy_id" ["1,foo", "2"]).1.2
      ⟨by decide, "1,foo", by decide, by decide⟩,
    rfl⟩

/-! ## Facts about `parseToCSV` -/

theorem cons_eraseIdx_perm {α : Type} (l : List α) (i : Nat) (x : α) (h : l[i]? = some x) :
    (x :: l.eraseIdx i).Perm l := by
  induction l generalizing i with
  | nil => simp at h
  | cons a t ih =>
    cases i with
    | zero =>
      simp only [List.getElem?_cons_zero, Option.some.injEq] at h
      subst h
      simp
    | succ j =>
      simp only [List.getElem?_cons_succ] at h
      simp only [List.eraseIdx_cons_succ]
      exact (List.Perm.swap a x _).trans ((ih j h).cons a)

theorem rangeOrder_perm {α : Type} (picks : List Nat) (ks : List α) :
    (rangeOrder picks ks).Perm ks := by
  induction picks generalizing ks with
  | nil => cases ks <;> simp [rangeOrder]
  | cons p ps ih =>
    cases ks with
    | nil => simp [rangeOrder]
    | cons k t =>
      have hlt : p % (t.length + 1) < (k :: t).length := by
        simpa using Nat.mod_lt p (Nat.succ_pos t.length)
      have hget : (k :: t)[p % (t.length + 1)]? = some ((k :: t)[p % (t.length + 1)]) :=
        List.getElem?_eq_getElem hlt
      rw [rangeOrder, hget]
      exact ((ih _).cons _).trans (cons_eraseIdx_perm _ _ _ hget)

theorem buildRow_obj {ν : Type} (fmtFloat : ν → String) (m : GoMap ν) (keys : List String) :
    buildRow fmtFloat (Value.obj m) keys =
      .ok (keys.map fun k => sprintV fmtFloat (mapIndex m k)) := by
  induction keys with
  | nil => rfl
  | cons k ks ih => simp [buildRow, ih]

theorem buildRow_length {ν : Type} (fmtFloat : ν → String) (item : Value ν)
    (keys row : List String) (h : buildRow fmtFloat item keys = .ok row) :
    row.length = keys.length := by
  induction keys generalizing row with
  | nil =>
    simp only [buildRow, Except.ok.injEq] at h
    subst h; rfl
  | cons k ks ih =>
    cases item with
    | obj m =>
      rw [buildRow_obj] at h
      simp only [Except.ok.injEq] at h
      subst h; simp
    | null => simp [buildRow] at h
    | bool b => simp [buildRow] at h
    | num x => simp [buildRow] at h
    | str s => simp [buildRow] at h
    | arr xs => simp [buildRow] at h

theorem writeRows_objs {ν : Type} (fmtFloat : ν → String) (writeOk : Nat → Bool)
    (hw : ∀ n, writeOk n = true) (keys : List String) (n : Nat) (ms : List (GoMap ν))
    (written : List (List String)) :
    writeRows fmtFloat writeOk keys n (ms.map Value.obj) written =
      ⟨[], written ++ ms.map (fun m => keys.map fun k => sprintV fmtFloat (mapIndex m k)),
        .returned⟩ := by
  induction ms generalizing n written with
  | nil => simp [writeRows]
  | cons m rest ih =>
    simp only [List.map_cons, writeRows, buildRow_obj, hw, if_true, ih]
    simp

theorem writeRows_aligned {ν : Type} (fmtFloat : ν → String) (writeOk : Nat → Bool)
    (keys : List String) (n : Nat) (data : List (Value ν)) (written : List (List String))
    (hwr : ∀ row ∈ written, row.length = keys.length) :
    ∀ row ∈ (writeRows fmtFloat writeOk keys n data written).written,
      row.length = keys.length := by
  induction data generalizing n written with
  | nil => simpa [writeRows] using hwr
  | cons item rest ih =>
    rw [writeRows]
    cases hb : buildRow fmtFloat item keys with
    | error p => simpa using hwr
    | ok row =>
      by_cases hok : writeOk n = true
      · simp only [hok, if_true]
        apply ih
        intro r hr
        rcases List.mem_append.1 hr with h | h
        · exact hwr r h
        · simp only [List.mem_singleton] at h
          subst h
          exact buildRow_length fmtFloat item keys r hb
      · simpa [hok] using hwr

theorem parseToCSV_objs {ν : Type} (fmtFloat : ν → String) (writeOk : Nat → Bool)
    (hw : ∀ n, writeOk n = true) (picks : List Nat) (first : GoMap ν) (rest : List (GoMap ν)) :
    parseToCSV fmtFloat true writeOk picks ((first :: rest).map Value.obj) =
      ⟨[],
        rangeOrder picks (mapKeys first) ::
          (first :: rest).map (fun m =>
            (rangeOrder picks (mapKeys first)).map fun k => sprintV fmtFloat (mapIndex m k)),
        .returned⟩ := by
  have h := writeRows_objs fmtFloat writeOk hw (rangeOrder picks (mapKeys first)) 1
    (first :: rest) [rangeOrder picks (mapKeys first)]
  simp only [List.map_cons] at h
  simp only [parseToCSV, List.map_cons, if_true, hw, h]
  simp

theorem parseToCSV_written_aligned {ν : Type} (fmtFloat : ν → String) (createOk : Bool)
    (writeOk : Nat → Bool) (picks : List Nat) (first : GoMap ν) (rest : List (Value ν)) :
    ∀ row ∈ (parseToCSV fmtFloat createOk writeOk picks (Value.obj first :: rest)).written,
      row.length = (rangeOrder picks (mapKeys first)).length := by
  cases createOk with
  | false => simp [parseToCSV]
  | true =>
    by_cases hok : writeOk 0 = true
    · simp only [parseToCSV, if_true, hok]
      apply writeRows_aligned
      simp
    · simp [parseToCSV, hok]

theorem mem_mapKeys {ν : Type} (m : GoMap ν) (k : String) :
    k ∈ mapKeys m ↔ ∃ v, (k, v) ∈ m := by
  simp [mapKeys, List.mem_dedup]

theorem lookup_some_mem {ν : Type} (m : GoMap ν) (k : String) (v : Value ν)
    (h : m.lookup k = some v) : (k, v) ∈ m := by
  induction m with
  | nil => simp at h
  | cons e t ih =>
    obtain ⟨k', v'⟩ := e
    by_cases hk : k = k'
    · subst hk
      simp only [List.lookup_cons, beq_self_eq_true, Option.some.injEq] at h
      subst h; simp
    · have hb : (k == k') = false := by simpa using hk
      simp only [List.lookup_cons, hb] at h
      exact List.mem_cons_of_mem _ (ih h)

theorem lookup_isSome_of_mem_mapKeys {ν : Type} (m : GoMap ν) (k : String)
    (h : k ∈ mapKeys m) : ∃ v, m.lookup k = some v ∧ mapIndex m k = v ∧ (k, v) ∈ m := by
  cases hl : m.lookup k with
  | none =>
    rw [List.lookup_eq_none_iff] at hl
    obtain ⟨v, hv⟩ := (mem_mapKeys m k).1 h
    have := hl (k, v) hv
    simp at this
  | some v => exact ⟨v, rfl, by simp [mapIndex, hl], lookup_some_mem m k v hl⟩

theorem mapIndex_absent {ν : Type} (m : GoMap ν) (k : String) (h : k ∉ mapKeys m) :
    mapIndex m k = Value.null := by
  cases hl : m.lookup k with
  | none => simp [mapIndex, hl]
  | some v => exact absurd ((mem_mapKeys m k).2 ⟨v, lookup_some_mem m k v hl⟩) h

theorem mapIndex_cases {ν : Type} (m : GoMap ν) (k : String) :
    mapIndex m k = Value.null ∨ ∃ kv ∈ m, mapIndex m k = kv.2 := by
  cases hl : m.lookup k with
  | none => left; simp [mapIndex, hl]
  | some v => right; exact ⟨(k, v), lookup_some_mem m k v hl, by simp [mapIndex, hl]⟩

theorem rangeOrder_singleton {α : Type} (picks : List Nat) (x : α) :
    rangeOrder picks [x] = [x] :=
  List.perm_singleton.1 (rangeOrder_perm picks [x])

theorem rangeOrder_pair (picks : List Nat) (a b : String) :
    rangeOrder picks [a, b] = [a, b] ∨ rangeOrder picks [a, b] = [b, a] := by
  cases picks with
  | nil => left; rfl
  | cons p ps =>
    have hp : p % 2 = 0 ∨ p % 2 = 1 := by omega
    rcases hp with h | h
    · left
      simp [rangeOrder, h, rangeOrder_singleton]
    · right
      simp [rangeOrder, h, rangeOrder_singleton]

/-- C2, as amended: for a non-empty list of records sharing the first record's
key set, with the file created and every write succeeding, `parseToCSV` writes
the keys of the first record, each once, in the order the `range` visits them,
then one row per record in list order whose cell in column `j` is the `%v` text
of the value the record holds under header key `j`. For the records
`[{"a":"1","b":"2"},{"a":"3","b":"4"}]` it writes `a,b` / `1,2` / `3,4` or
`b,a` / `2,1` / `4,3`, according to that order. -/
theorem parseToCSV_header_then_rows {ν : Type} (fmtFloat : ν → String) (writeOk : Nat → Bool)
    (hw : ∀ n, writeOk n = true) (picks : List Nat) (first : GoMap ν) (rest : List (GoMap ν))
    (hkeys : ∀ m ∈ rest, ∀ k, k ∈ mapKeys m ↔ k ∈ mapKeys first) :
    (rangeOrder picks (mapKeys first)).Perm (mapKeys first) ∧
    parseToCSV fmtFloat true writeOk picks ((first :: rest).map Value.obj) =
      ⟨[],
        rangeOrder picks (mapKeys first) ::
          (first :: rest).map (fun m =>
            (rangeOrder picks (mapKeys first)).map fun k => sprintV fmtFloat (mapIndex m k)),
        .returned⟩ ∧
    (∀ m ∈ first :: rest, ∀ k ∈ rangeOrder picks (mapKeys first),
      ∃ v, m.lookup k = some v ∧ mapIndex m k = v) ∧
    (parseToCSV (fun _ => "") true writeOk picks exampleRecords =
        ⟨[], [["a", "b"], ["1", "2"], ["3", "4"]], .returned⟩ ∨
      parseToCSV (fun _ => "") true writeOk picks exampleRecords =
        ⟨[], [["b", "a"], ["2", "1"], ["4", "3"]], .returned⟩) := by
  refine ⟨rangeOrder_perm _ _, parseToCSV_objs fmtFloat writeOk hw picks first rest, ?_, ?_⟩
  · intro m hm k hk
    have hk1 : k ∈ mapKeys first := (rangeOrder_perm picks (mapKeys first)).mem_iff.1 hk
    have hk2 : k ∈ mapKeys m := by
      rcases List.mem_cons.1 hm with e | e
      · subst e; exact hk1
      · exact (hkeys m e k).2 hk1
    obtain ⟨v, hv, hi, _⟩ := lookup_isSome_of_mem_mapKeys m k hk2
    exact ⟨v, hv, hi⟩
  · have hex : exampleRecords =
        ([("a", Value.str "1"), ("b", Value.str "2")] ::
          [[("a", Value.str "3"), ("b", Value.str "4")]]).map Value.obj := rfl
    have hk : mapKeys ([("a", Value.str "1"), ("b", Value.str "2")] : GoMap Unit) =
        ["a", "b"] := by decide
    rw [hex, parseToCSV_objs (fun _ => "") writeOk hw picks, hk]
    rcases rangeOrder_pair picks "a" "b" with h | h
    · left; rw [h]; rfl
    · right; rw [h]; rfl

/-- C2 at the records `{"x":true}` and `{"x":null}`, visited in list order. -/
theorem parseToCSV_header_then_rows_witness :
    (∀ n, (fun _ : Nat => true) n = true) ∧
    (∀ m ∈ [([("x", Value.null)] : GoMap Unit)], ∀ k,
      k ∈ mapKeys m ↔ k ∈ mapKeys ([("x", Value.bool true)] : GoMap Unit)) ∧
    parseToCSV (fun _ : Unit => "") true (fun _ => true) []
        [Value.obj [("x", Value.bool true)], Value.obj [("x", Value.null)]] =
      ⟨[], [["x"], ["true"], ["<nil>"]], .returned⟩ :=
  ⟨fun _ => rfl,
    fun m hm k => by rw [List.mem_singleton.1 hm]; exact Iff.rfl,
    (parseToCSV_header_then_rows (fun _ : Unit => "") (fun _ => true) (fun _ => rfl) []
      [("x", Value.bool true)] [[("x", Value.null)]]
      (fun m hm k => by rw [List.mem_singleton.1 hm]; exact Iff.rfl)).2.1.trans rfl⟩

/-- C2 as stated fails: when the `range` over `{"a":"1","b":"2"}` visits `b`
first, the records `[{"a":"1","b":"2"},{"a":"3","b":"4"}]` are written as
`b,a` / `2,1` / `4,3`, not as `a,b` / `1,2` / `3,4`. -/
theorem parseToCSV_example_other_order :
    parseToCSV (fun _ => "") true (fun _ => true) [1] exampleRecords =
      ⟨[], [["b", "a"], ["2", "1"], ["4", "3"]], .returned⟩ ∧
    (parseToCSV (fun _ => "") true (fun _ => true) [1] exampleRecords).text =
      "b,a\n2,1\n4,3\n" ∧
    (parseToCSV (fun _ => "") true (fun _ => true) [1] exampleRecords).written ≠
      [["a", "b"], ["1", "2"], ["3", "4"]] := by
  decide

/-- C3 (the code departs from it): given no record and a file that could be
created, `parseToCSV` panics on `data[0]` with an index failure; nothing is
printed and nothing is written. Only when the file cannot be created does it
print a failure and return. -/
theorem parseToCSV_empty_panics {ν : Type} (fmtFloat : ν → String) (writeOk : Nat → Bool)
    (picks : List Nat) :
    parseToCSV fmtFloat true writeOk picks [] = ⟨[], [], .panicked .indexOutOfRange⟩ ∧
    parseToCSV fmtFloat false writeOk picks [] = ⟨[Msg.errorCreatingFile], [], .returned⟩ :=
  ⟨rfl, rfl⟩

/-- C10: for a non-empty list of records with arbitrary key sets, every row
`parseToCSV` writes has as many cells as the header row, whatever the
environment does; the header is the first record's keys, each once, so a key
outside the first record gets no column; with the file created and every write
succeeding there is one row per record, its cell under a header key being the
`%v` text of the record's value there; and a record lacking a header key yields
the cell `<nil>`. -/
theorem parseToCSV_rows_aligned {ν : Type} (fmtFloat : ν → String) (createOk : Bool)
    (writeOk : Nat → Bool) (picks : List Nat) (first : GoMap ν) (rest : List (GoMap ν)) :
    (∀ row ∈ (parseToCSV fmtFloat createOk writeOk picks
        ((first :: rest).map Value.obj)).written,
      row.length = (rangeOrder picks (mapKeys first)).length) ∧
    (rangeOrder picks (mapKeys first)).Perm (mapKeys first) ∧
    ((∀ n, writeOk n = true) →
      parseToCSV fmtFloat true writeOk picks ((first :: rest).map Value.obj) =
        ⟨[],
          rangeOrder picks (mapKeys first) ::
            (first :: rest).map (fun m =>
              (rangeOrder picks (mapKeys first)).map fun k =>
                sprintV fmtFloat (mapIndex m k)),
          .returned⟩) ∧
    (∀ (m : GoMap ν) (k : String), k ∉ mapKeys m → sprintV fmtFloat (mapIndex m k) = "<nil>") := by
  refine ⟨?_, rangeOrder_perm _ _, fun hw => parseToCSV_objs fmtFloat writeOk hw picks first rest,
    ?_⟩
  · exact parseToCSV_written_aligned fmtFloat createOk writeOk picks first
      (rest.map Value.obj)
  · intro m k hk
    rw [mapIndex_absent m k hk]
    rfl

/-- C10 at the records `{"a":"1","b":"2"}` and `{"b":"3","c":"4"}`: the second
row has the cell `<nil>` under `a` and no cell for `c`. -/
theorem parseToCSV_rows_aligned_witness :
    (∀ n, (fun _ : Nat => true) n = true) ∧
    parseToCSV (fun _ : Unit => "") true (fun _ => true) []
        [Value.obj [("a", Value.str "1"), ("b", Value.str "2")],
          Value.obj [("b", Value.str "3"), ("c", Value.str "4")]] =
      ⟨[], [["a", "b"], ["1", "2"], ["<nil>", "3"]], .returned⟩ :=
  ⟨fun _ => rfl,
    ((parseToCSV_rows_aligned (fun _ : Unit => "") true (fun _ => true) []
      [("a", Value.str "1"), ("b", Value.str "2")]
      [[("b", Value.str "3"), ("c", Value.str "4")]]).2.2.1 (fun _ => rfl)).trans rfl⟩

/-! ## Facts about splitting a written row -/

theorem splitCommaAux_length (cur cs : List Char) :
    (splitCommaAux cur cs).length = cs.count ',' + 1 := by
  induction cs generalizing cur with
  | nil => simp [splitCommaAux]
  | cons c t ih =>
    by_cases hc : c = ','
    · subst hc
      simp [splitCommaAux, ih]
    · have hne : ¬ ((c == ',') = true) := by simpa using hc
      simp [splitCommaAux, hc, ih, List.count_cons, hne]

theorem stringsSplit_length (s : String) :
    (stringsSplit s).length = s.data.count ',' + 1 :=
  splitCommaAux_length [] s.data

theorem quoteChars_count_comma (cs : List Char) :
    (quoteChars cs).count ',' = cs.count ',' := by
  induction cs with
  | nil => rfl
  | cons c t ih =>
    by_cases hq : c = '"'
    · subst hq
      simp [quoteChars, List.count_cons, ih]
    · simp [quoteChars, hq, List.count_cons, ih]

theorem csvField_count_comma (field : String) :
    (csvField field).data.count ',' = field.data.count ',' := by
  unfold csvField
  by_cases h : fieldNeedsQuotes field = true
  · simp [h, quoteField, List.count_cons, quoteChars_count_comma]
  · simp [h]

theorem writeFieldsFrom_count_comma (n : Nat) (fields : List String)
    (h : ∀ f ∈ fields, ',' ∉ f.data) :
    (writeFieldsFrom n fields).data.count ',' =
      if n > 0 then fields.length else fields.length - 1 := by
  induction fields generalizing n with
  | nil => simp [writeFieldsFrom]
  | cons f rest ih =>
    have hf : f.data.count ',' = 0 := List.count_eq_zero.2 (h f (by simp))
    have hrest := ih (n + 1) (fun g hg => h g (List.mem_cons_of_mem _ hg))
    simp only [writeFieldsFrom, String.data_append, List.count_append, csvField_count_comma,
      hf, hrest]
    by_cases hn : n > 0
    · simp [hn]
      omega
    · simp [hn]

theorem csvWrite_split_length (row : List String) (hne : row ≠ [])
    (h : ∀ f ∈ row, ',' ∉ f.data) :
    (stringsSplit (csvWrite row)).length = row.length ∧
    (stringsSplit (writeFieldsFrom 0 row)).length = row.length := by
  have hlen : 0 < row.length := List.length_pos.2 hne
  have hc := writeFieldsFrom_count_comma 0 row h
  simp only [gt_iff_lt, lt_self_iff_false, if_false] at hc
  constructor
  · rw [stringsSplit_length, csvWrite, String.data_append, List.count_append, hc]
    simp
    omega
  · rw [stringsSplit_length, hc]
    omega

/-- C8, as amended: for every record and every non-empty header key list, if no
`%v` text of a value of the record contains a comma, then the row `parseToCSV`
builds has one cell per header key, and splitting the text `writer.Write`
emits for it (with or without its line end) on the comma gives exactly as many
fields as there are header keys. -/
theorem written_row_split_field_count {ν : Type} (fmtFloat : ν → String) (m : GoMap ν)
    (keys : List String) (hne : keys ≠ [])
    (hcomma : ∀ kv ∈ m, ',' ∉ (sprintV fmtFloat kv.2).data) :
    ∃ row, buildRow fmtFloat (Value.obj m) keys = .ok row ∧
      row.length = keys.length ∧
      (stringsSplit (csvWrite row)).length = keys.length ∧
      (stringsSplit (writeFieldsFrom 0 row)).length = keys.length := by
  refine ⟨keys.map fun k => sprintV fmtFloat (mapIndex m k), buildRow_obj fmtFloat m keys,
    by simp, ?_⟩
  have hrow : (keys.map fun k => sprintV fmtFloat (mapIndex m k)) ≠ [] := by
    simpa using hne
  have hfree : ∀ f ∈ keys.map (fun k => sprintV fmtFloat (mapIndex m k)), ',' ∉ f.data := by
    intro f hf
    obtain ⟨k, _, rfl⟩ := List.mem_map.1 hf
    rcases mapIndex_cases m k with h | ⟨kv, hkv, h⟩
    · rw [h]
      show ',' ∉ ("<nil>" : String).data
      decide
    · rw [h]; exact hcomma kv hkv
  have := csvWrite_split_length _ hrow hfree
  simpa using this

/-- C8 at the record `{"a":"1","b":"x y"}` and the header keys `b`, `a`, `c`. -/
theorem written_row_split_field_count_witness :
    (["b", "a", "c"] : List String) ≠ [] ∧
    (∀ kv ∈ ([("a", Value.str "1"), ("b", Value.str "x y")] : GoMap Unit),
      ',' ∉ (sprintV (fun _ => "") kv.2).data) ∧
    ∃ row, buildRow (fun _ : Unit => "") (Value.obj [("a", Value.str "1"), ("b", Value.str "x y")])
        ["b", "a", "c"] = .ok row ∧
      row.length = ["b", "a", "c"].length ∧
      (stringsSplit (csvWrite row)).length = ["b", "a", "c"].length ∧
      (stringsSplit (writeFieldsFrom 0 row)).length = ["b", "a", "c"].length :=
  ⟨by decide, by decide,
    written_row_split_field_count (fun _ : Unit => "")
      [("a", Value.str "1"), ("b", Value.str "x y")] ["b", "a", "c"] (by decide) (by decide)⟩

/-- C8 as stated fails for the empty header key list: the record `{}` has no
value with a comma and its row has no cell, yet the text written is a lone
newline, and splitting it (with or without the newline) yields one field, not
zero. -/
theorem written_row_split_empty_header :
    (∀ kv ∈ ([] : GoMap Unit), ',' ∉ (sprintV (fun _ => "") kv.2).data) ∧
    buildRow (fun _ : Unit => "") (Value.obj []) [] = .ok [] ∧
    csvWrite [] = "\n" ∧
    stringsSplit (csvWrite []) = ["\n"] ∧
    stringsSplit (writeFieldsFrom 0 []) = [""] ∧
    (stringsSplit (csvWrite [])).length ≠ ([] : List String).length := by
  refine ⟨by simp, rfl, by decide, by decide, by decide, by decide⟩

/-! ## Facts about the fan-out transition system -/

theorem step_launch {ρ : Type} (f : Nat → String → Option ρ) (s t : State ρ)
    (h : step f s .launch = some t) :
    ∃ id rest, s.panicked = none ∧ s.main = .launching (id :: rest) ∧
      t = { s with
        main := .launching rest
        wg := s.wg + 1
        workers := s.workers ++ [{ id := id, detail := none, pc := .atFetch }] } := by
  simp only [step] at h
  split at h
  · rename_i id rest hp hm
    exact ⟨id, rest, hp, hm, by simpa using h.symm⟩
  · simp at h

theorem step_startCloser {ρ : Type} (f : Nat → String → Option ρ) (s t : State ρ)
    (h : step f s .startCloser = some t) :
    s.panicked = none ∧ s.main = .launching [] ∧
      t = { s with main := .draining, closer := .waiting } := by
  simp only [step] at h
  split at h
  · rename_i hp hm
    exact ⟨hp, hm, by simpa using h.symm⟩
  · simp at h

theorem step_fetch {ρ : Type} (f : Nat → String → Option ρ) (s t : State ρ) (i : Nat)
    (h : step f s (.fetch i) = some t) :
    ∃ w, s.panicked = none ∧ s.workers[i]? = some w ∧ w.pc = .atFetch ∧
      t = { s with
        workers := s.workers.set i (w.afterFetch (f i w.id))
        calls := s.calls ++ [w.id] } := by
  simp only [step] at h
  split at h
  · rename_i w hp hw
    split at h
    · rename_i hpc
      exact ⟨w, hp, hw, hpc, by simpa using h.symm⟩
    · simp at h
  · simp at h

theorem step_deliver {ρ : Type} (f : Nat → String → Option ρ) (s t : State ρ) (i : Nat)
    (h : step f s (.deliver i) = some t) :
    ∃ w d, s.panicked = none ∧ s.main = .draining ∧ s.closed = false ∧
      s.workers[i]? = some w ∧ w.pc = .atSend ∧ w.detail = some d ∧
      t = { s with
        workers := s.workers.set i { w with pc := .atDone }
        data := s.data ++ [d] } := by
  simp only [step] at h
  split at h
  · rename_i w hp hm hc hw
    split at h
    · rename_i d hpc hd
      exact ⟨w, d, hp, hm, hc, hw, hpc, hd, by simpa using h.symm⟩
    · simp at h
  · simp at h

theorem step_sendOnClosed {ρ : Type} (f : Nat → String → Option ρ) (s t : State ρ) (i : Nat)
    (h : step f s (.sendOnClosed i) = some t) :
    ∃ w, s.panicked = none ∧ s.closed = true ∧ s.workers[i]? = some w ∧ w.pc = .atSend ∧
      t = { s with panicked := some .sendOnClosedChannel } := by
  simp only [step] at h
  split at h
  · rename_i w hp hc hw
    split at h
    · rename_i hpc
      exact ⟨w, hp, hc, hw, hpc, by simpa using h.symm⟩
    · simp at h
  · simp at h

theorem step_wgDone {ρ : Type} (f : Nat → String → Option ρ) (s t : State ρ) (i : Nat)
    (h : step f s (.wgDone i) = some t) :
    ∃ w, s.panicked = none ∧ s.workers[i]? = some w ∧ w.pc = .atDone ∧
      t = { s with
        workers := s.workers.set i { w with pc := .finished }
        wg := s.wg - 1 } := by
  simp only [step] at h
  split at h
  · rename_i w hp hw
    split at h
    · rename_i hpc
      exact ⟨w, hp, hw, hpc, by simpa using h.symm⟩
    · simp at h
  · simp at h

theorem step_close {ρ : Type} (f : Nat → String → Option ρ) (s t : State ρ)
    (h : step f s .close = some t) :
    s.panicked = none ∧ s.closer = .waiting ∧ s.wg = 0 ∧
      t = { s with closer := .finished, closed := true } := by
  simp only [step] at h
  split at h
  · rename_i hp hc
    split at h
    · rename_i hwg
      exact ⟨hp, hc, hwg, by simpa using h.symm⟩
    · simp at h
  · simp at h

theorem step_finish {ρ : Type} (f : Nat → String → Option ρ) (s t : State ρ)
    (h : step f s .finish = some t) :
    s.panicked = none ∧ s.main = .draining ∧ s.closed = true ∧
      t = { s with main := .returned } := by
  simp only [step] at h
  split at h
  · rename_i hp hm
    split at h
    · rename_i hc
      exact ⟨hp, hm, hc, by simpa using h.symm⟩
    · simp at h
  · simp at h

theorem getElem?_split {α : Type} (l : List α) (i : Nat) (w : α) (h : l[i]? = some w) :
    ∃ l₁ l₂, l = l₁ ++ w :: l₂ ∧ l₁.length = i := by
  induction l generalizing i with
  | nil => simp at h
  | cons a t ih =>
    cases i with
    | zero =>
      simp only [List.getElem?_cons_zero, Option.some.injEq] at h
      exact ⟨[], t, by simp [h], rfl⟩
    | succ j =>
      simp only [List.getElem?_cons_succ] at h
      obtain ⟨l₁, l₂, hl, hlen⟩ := ih j h
      exact ⟨a :: l₁, l₂, by simp [hl], by simp [hlen]⟩

theorem set_middle {α : Type} (l₁ l₂ : List α) (w w' : α) :
    (l₁ ++ w :: l₂).set l₁.length w' = l₁ ++ w' :: l₂ := by
  induction l₁ with
  | nil => rfl
  | cons a t ih => simp [ih]

theorem map_set_of_eq {α β : Type} (g : α → β) (l : List α) (i : Nat) (w w' : α)
    (h : l[i]? = some w) (hg : g w' = g w) : (l.set i w').map g = l.map g := by
  obtain ⟨l₁, l₂, rfl, rfl⟩ := getElem?_split l i w h
  simp [set_middle, hg]

theorem filterMap_set_of_eq {α β : Type} (g : α → Option β) (l : List α) (i : Nat) (w w' : α)
    (h : l[i]? = some w) (hg : g w' = g w) : (l.set i w').filterMap g = l.filterMap g := by
  obtain ⟨l₁, l₂, rfl, rfl⟩ := getElem?_split l i w h
  simp [set_middle, List.filterMap_append, List.filterMap_cons, hg]

theorem filterMap_set_perm {α β : Type} (g : α → Option β) (l : List α) (i : Nat) (w w' : α)
    (x : β) (h : l[i]? = some w) (h1 : g w = none) (h2 : g w' = some x) :
    (l.filterMap g ++ [x]).Perm ((l.set i w').filterMap g) := by
  obtain ⟨l₁, l₂, rfl, rfl⟩ := getElem?_split l i w h
  simp only [set_middle, List.filterMap_append, List.filterMap_cons, h1, h2]
  refine (List.perm_append_comm).trans ?_
  simp only [List.singleton_append]
  exact List.perm_middle.symm

theorem sum_map_set {α : Type} (g : α → Nat) (l : List α) (i : Nat) (w w' : α)
    (h : l[i]? = some w) : ((l.set i w').map g).sum + g w = (l.map g).sum + g w' := by
  obtain ⟨l₁, l₂, rfl, rfl⟩ := getElem?_split l i w h
  simp only [set_middle, List.map_append, List.map_cons, List.sum_append, List.sum_cons]
  omega

theorem le_sum_map {α : Type} (g : α → Nat) (l : List α) (i : Nat) (w : α)
    (h : l[i]? = some w) : g w ≤ (l.map g).sum := by
  obtain ⟨l₁, l₂, rfl, rfl⟩ := getElem?_split l i w h
  simp only [List.map_append, List.map_cons, List.sum_append, List.sum_cons]
  omega

theorem getElem?_set_cases {α : Type} (l : List α) (i j : Nat) (w' v : α)
    (h : (l.set i w')[j]? = some v) : (j = i ∧ v = w') ∨ (j ≠ i ∧ l[j]? = some v) := by
  by_cases hij : i = j
  · subst hij
    left
    rw [List.getElem?_set] at h
    by_cases hl : i < l.length
    · simp only [if_true, hl, Option.some.injEq] at h
      exact ⟨rfl, h.symm⟩
    · simp [hl] at h
  · right
    rw [List.getElem?_set_ne hij] at h
    exact ⟨fun e => hij e.symm, h⟩

theorem Inv_init {ρ : Type} (f : Nat → String → Option ρ) (ids : List String) :
    Inv f ids (State.init ids) where
  noPanic := rfl
  launched := by simp [State.init, State.pending]
  closerStarted := by simp [State.init]
  returnedClosed := by simp [State.init]
  counter := by simp [State.init]
  closedIff := by simp [State.init]
  closedZero := by simp [State.init]
  results := by simp [State.init]
  dataPerm := by simp [State.init]
  callsPerm := by simp [State.init]

theorem Inv.not_closed_of_active {ρ : Type} {f : Nat → String → Option ρ} {ids : List String}
    {s : State ρ} (inv : Inv f ids s) (i : Nat) (w : Worker ρ) (hw : s.workers[i]? = some w)
    (hact : w.active = 1) : s.closed = false := by
  cases hc : s.closed with
  | false => rfl
  | true =>
    have h0 := inv.closedZero hc
    have hsum := inv.counter
    rw [h0] at hsum
    have hle := le_sum_map (fun w : Worker ρ => w.active) s.workers i w hw
    simp only [hact] at hle
    omega

theorem Inv_launch {ρ : Type} (f : Nat → String → Option ρ) (ids : List String) (s t : State ρ)
    (inv : Inv f ids s) (h : step f s .launch = some t) : Inv f ids t := by
  obtain ⟨id, rest, hp, hm, rfl⟩ := step_launch f s t h
  have hpend : s.pending = id :: rest := by simp [State.pending, hm]
  have hns : s.closer = .notStarted := inv.closerStarted.2 ⟨_, hm⟩
  have hnc : s.closed = false := by
    cases hc : s.closed with
    | false => rfl
    | true => have := inv.closedIff.1 hc; rw [hns] at this; cases this
  refine ⟨hp, ?_, ?_, ?_, ?_, inv.closedIff, ?_, ?_, ?_, ?_⟩
  · have := inv.launched
    rw [hpend] at this
    simpa [State.pending] using this
  · simp [hns]
  · simp
  · simp [inv.counter, Worker.active]
  · simp [hnc]
  · intro i w hw
    simp only at hw
    by_cases hi : i < s.workers.length
    · rw [List.getElem?_append_left hi] at hw
      exact inv.results i w hw
    · rw [List.getElem?_append_right (by omega)] at hw
      cases hk : i - s.workers.length with
      | zero =>
        simp only [hk, List.getElem?_cons_zero, Option.some.injEq] at hw
        subst hw
        simp
      | succ k => simp [hk] at hw
  · simpa [Worker.delivered] using inv.dataPerm
  · simpa [Worker.called] using inv.callsPerm

theorem Inv_startCloser {ρ : Type} (f : Nat → String → Option ρ) (ids : List String)
    (s t : State ρ) (inv : Inv f ids s) (h : step f s .startCloser = some t) :
    Inv f ids t := by
  obtain ⟨hp, hm, rfl⟩ := step_startCloser f s t h
  have hpend : s.pending = [] := by simp [State.pending, hm]
  have hns : s.closer = .notStarted := inv.closerStarted.2 ⟨_, hm⟩
  have hnc : s.closed = false := by
    cases hc : s.closed with
    | false => rfl
    | true => have := inv.closedIff.1 hc; rw [hns] at this; cases this
  refine ⟨hp, ?_, ?_, ?_, inv.counter, ?_, inv.closedZero, inv.results, inv.dataPerm,
    inv.callsPerm⟩
  · have := inv.launched
    rw [hpend] at this
    simpa [State.pending] using this
  · simp
  · simp
  · simp [hnc]

theorem Inv_fetch {ρ : Type} (f : Nat → String → Option ρ) (ids : List String) (s t : State ρ)
    (i : Nat) (inv : Inv f ids s) (h : step f s (.fetch i) = some t) : Inv f ids t := by
  obtain ⟨w, hp, hw, hpc, rfl⟩ := step_fetch f s t i h
  have hdet : w.detail = none := (inv.results i w hw).1 hpc
  have hpc' : (w.afterFetch (f i w.id)).pc ≠ .atFetch := by
    cases hr : f i w.id <;> simp [Worker.afterFetch]
  refine ⟨hp, ?_, inv.closerStarted, inv.returnedClosed, ?_, inv.closedIff, inv.closedZero,
    ?_, ?_, ?_⟩
  · have := inv.launched
    simp only [State.pending] at this ⊢
    rw [map_set_of_eq (fun w : Worker ρ => w.id) s.workers i w
      (w.afterFetch (f i w.id)) hw rfl]
    exact this
  · have hsum := sum_map_set (fun w : Worker ρ => w.active) s.workers i w
      (w.afterFetch (f i w.id)) hw
    have h1 : w.active = 1 := by simp [Worker.active, hpc]
    have h2 : (w.afterFetch (f i w.id)).active = 1 := by
      cases hr : f i w.id <;> simp [Worker.afterFetch, Worker.active]
    simp only [h1, h2] at hsum
    have := inv.counter
    simp only at this ⊢
    omega
  · intro j v hv
    rcases getElem?_set_cases _ _ _ _ _ hv with ⟨rfl, rfl⟩ | ⟨_, hold⟩
    · refine ⟨fun e => absurd e hpc', fun _ => ?_, fun e => ?_⟩
      · simp [Worker.afterFetch]
      · cases hr : f j w.id with
        | none => simp [Worker.afterFetch, hr] at e
        | some d => exact ⟨d, by simp [Worker.afterFetch, hr]⟩
    · exact inv.results j v hold
  · have hd1 : w.delivered = none := by simp [Worker.delivered, hpc]
    have hd2 : (w.afterFetch (f i w.id)).delivered = w.delivered := by
      rw [hd1]
      cases hr : f i w.id <;> simp [Worker.afterFetch, Worker.delivered]
    simp only
    rw [filterMap_set_of_eq (fun w : Worker ρ => w.delivered) s.workers i w _ hw hd2]
    exact inv.dataPerm
  · have hc1 : w.called = none := by simp [Worker.called, hpc]
    have hc2 : (w.afterFetch (f i w.id)).called = some w.id := by
      cases hr : f i w.id <;> simp [Worker.afterFetch, Worker.called]
    exact (inv.callsPerm.append_right [w.id]).trans
      (filterMap_set_perm (fun w : Worker ρ => w.called) s.workers i w _ w.id hw hc1 hc2)

theorem Inv_deliver {ρ : Type} (f : Nat → String → Option ρ) (ids : List String)
    (s t : State ρ) (i : Nat) (inv : Inv f ids s) (h : step f s (.deliver i) = some t) :
    Inv f ids t := by
  obtain ⟨w, d, hp, hm, hcl, hw, hpc, hd, rfl⟩ := step_deliver f s t i h
  refine ⟨hp, ?_, inv.closerStarted, inv.returnedClosed, ?_, inv.closedIff, inv.closedZero,
    ?_, ?_, ?_⟩
  · have := inv.launched
    simp only [State.pending] at this ⊢
    rw [map_set_of_eq (fun w : Worker ρ => w.id) s.workers i w
      { w with pc := .atDone } hw rfl]
    exact this
  · have hsum := sum_map_set (fun w : Worker ρ => w.active) s.workers i w
      { w with pc := .atDone } hw
    have h1 : w.active = 1 := by simp [Worker.active, hpc]
    have h2 : ({ w with pc := .atDone } : Worker ρ).active = 1 := by simp [Worker.active]
    simp only [h1, h2] at hsum
    have := inv.counter
    simp only at this ⊢
    omega
  · intro j v hv
    rcases getElem?_set_cases _ _ _ _ _ hv with ⟨rfl, rfl⟩ | ⟨_, hold⟩
    · have hold := (inv.results j w hw).2.1 (by simp [hpc])
      refine ⟨fun e => by simp at e, fun _ => hold, fun e => by simp at e⟩
    · exact inv.results j v hold
  · have hd1 : w.delivered = none := by simp [Worker.delivered, hpc]
    have hd2 : ({ w with pc := .atDone } : Worker ρ).delivered = some d := by
      simp [Worker.delivered, hd]
    exact (inv.dataPerm.append_right [d]).trans
      (filterMap_set_perm (fun w : Worker ρ => w.delivered) s.workers i w _ d hw hd1 hd2)
  · have hc : ({ w with pc := .atDone } : Worker ρ).called = w.called := by
      simp [Worker.called, hpc]
    simp only
    rw [filterMap_set_of_eq (fun w : Worker ρ => w.called) s.workers i w _ hw hc]
    exact inv.callsPerm

theorem Inv_sendOnClosed {ρ : Type} (f : Nat → String → Option ρ) (ids : List String)
    (s t : State ρ) (i : Nat) (inv : Inv f ids s) (h : step f s (.sendOnClosed i) = some t) :
    False := by
  obtain ⟨w, _, hcl, hw, hpc, _⟩ := step_sendOnClosed f s t i h
  have := inv.not_closed_of_active i w hw (by simp [Worker.active, hpc])
  rw [hcl] at this
  cases this

theorem Inv_wgDone {ρ : Type} (f : Nat → String → Option ρ) (ids : List String)
    (s t : State ρ) (i : Nat) (inv : Inv f ids s) (h : step f s (.wgDone i) = some t) :
    Inv f ids t := by
  obtain ⟨w, hp, hw, hpc, rfl⟩ := step_wgDone f s t i h
  have hact : w.active = 1 := by simp [Worker.active, hpc]
  have hncl : s.closed = false := inv.not_closed_of_active i w hw hact
  refine ⟨hp, ?_, inv.closerStarted, inv.returnedClosed, ?_, inv.closedIff, ?_, ?_, ?_, ?_⟩
  · have := inv.launched
    simp only [State.pending] at this ⊢
    rw [map_set_of_eq (fun w : Worker ρ => w.id) s.workers i w
      { w with pc := .finished } hw rfl]
    exact this
  · have hsum := sum_map_set (fun w : Worker ρ => w.active) s.workers i w
      { w with pc := .finished } hw
    have h2 : ({ w with pc := .finished } : Worker ρ).active = 0 := by simp [Worker.active]
    simp only [hact, h2] at hsum
    have := inv.counter
    simp only at this ⊢
    omega
  · simp [hncl]
  · intro j v hv
    rcases getElem?_set_cases _ _ _ _ _ hv with ⟨rfl, rfl⟩ | ⟨_, hold⟩
    · have hold := (inv.results j w hw).2.1 (by simp [hpc])
      refine ⟨fun e => by simp at e, fun _ => hold, fun e => by simp at e⟩
    · exact inv.results j v hold
  · have hd : ({ w with pc := .finished } : Worker ρ).delivered = w.delivered := by
      simp [Worker.delivered, hpc]
    simp only
    rw [filterMap_set_of_eq (fun w : Worker ρ => w.delivered) s.workers i w _ hw hd]
    exact inv.dataPerm
  · have hc : ({ w with pc := .finished } : Worker ρ).called = w.called := by
      simp [Worker.called, hpc]
    simp only
    rw [filterMap_set_of_eq (fun w : Worker ρ => w.called) s.workers i w _ hw hc]
    exact inv.callsPerm

theorem Inv_close {ρ : Type} (f : Nat → String → Option ρ) (ids : List String) (s t : State ρ)
    (inv : Inv f ids s) (h : step f s .close = some t) : Inv f ids t := by
  obtain ⟨hp, hc, hwg, rfl⟩ := step_close f s t h
  refine ⟨hp, inv.launched, ?_, ?_, inv.counter, ?_, ?_, inv.results, inv.dataPerm,
    inv.callsPerm⟩
  · have := inv.closerStarted
    rw [hc] at this
    simpa using this
  · simp
  · simp
  · simp [hwg]

theorem Inv_finish {ρ : Type} (f : Nat → String → Option ρ) (ids : List String) (s t : State ρ)
    (inv : Inv f ids s) (h : step f s .finish = some t) : Inv f ids t := by
  obtain ⟨hp, hm, hcl, rfl⟩ := step_finish f s t h
  refine ⟨hp, ?_, ?_, ?_, inv.counter, inv.closedIff, inv.closedZero, inv.results,
    inv.dataPerm, inv.callsPerm⟩
  · have := inv.launched
    simpa [State.pending, hm] using this
  · have := inv.closerStarted
    simp only [hm] at this
    simpa using this
  · simp [hcl]

theorem Inv_step {ρ : Type} (f : Nat → String → Option ρ) (ids : List String) (s t : State ρ)
    (e : Event) (inv : Inv f ids s) (h : step f s e = some t) : Inv f ids t := by
  cases e with
  | launch => exact Inv_launch f ids s t inv h
  | startCloser => exact Inv_startCloser f ids s t inv h
  | fetch i => exact Inv_fetch f ids s t i inv h
  | deliver i => exact Inv_deliver f ids s t i inv h
  | sendOnClosed i => exact (Inv_sendOnClosed f ids s t i inv h).elim
  | wgDone i => exact Inv_wgDone f ids s t i inv h
  | close => exact Inv_close f ids s t inv h
  | finish => exact Inv_finish f ids s t inv h

theorem step_measure {ρ : Type} (f : Nat → String → Option ρ) (ids : List String)
    (s t : State ρ) (e : Event) (inv : Inv f ids s) (h : step f s e = some t) :
    t.measure + 1 ≤ s.measure := by
  cases e with
  | launch =>
    obtain ⟨id, rest, _, hm, rfl⟩ := step_launch f s t h
    simp [State.measure, hm, WorkerPc.rank]
    omega
  | startCloser =>
    obtain ⟨_, hm, rfl⟩ := step_startCloser f s t h
    have hns : s.closer = .notStarted := inv.closerStarted.2 ⟨_, hm⟩
    simp [State.measure, hm, hns]
    omega
  | fetch i =>
    obtain ⟨w, _, hw, hpc, rfl⟩ := step_fetch f s t i h
    have hsum : ((s.workers.set i (w.afterFetch (f i w.id))).map fun w => w.pc.rank).sum +
        w.pc.rank = (s.workers.map fun w => w.pc.rank).sum +
          (w.afterFetch (f i w.id)).pc.rank :=
      sum_map_set (fun w : Worker ρ => w.pc.rank) s.workers i w (w.afterFetch (f i w.id)) hw
    have h2 : (w.afterFetch (f i w.id)).pc.rank ≤ 2 := by
      cases hr : f i w.id <;> simp [Worker.afterFetch, WorkerPc.rank]
    have h1 : w.pc.rank = 3 := by rw [hpc]; rfl
    simp only [State.measure]
    omega
  | deliver i =>
    obtain ⟨w, d, _, _, _, hw, hpc, _, rfl⟩ := step_deliver f s t i h
    have hsum : ((s.workers.set i { w with pc := .atDone }).map fun w => w.pc.rank).sum +
        w.pc.rank = (s.workers.map fun w => w.pc.rank).sum + 1 :=
      sum_map_set (fun w : Worker ρ => w.pc.rank) s.workers i w { w with pc := .atDone } hw
    have h1 : w.pc.rank = 2 := by rw [hpc]; rfl
    simp only [State.measure]
    omega
  | sendOnClosed i => exact (Inv_sendOnClosed f ids s t i inv h).elim
  | wgDone i =>
    obtain ⟨w, _, hw, hpc, rfl⟩ := step_wgDone f s t i h
    have hsum : ((s.workers.set i { w with pc := .finished }).map fun w => w.pc.rank).sum +
        w.pc.rank = (s.workers.map fun w => w.pc.rank).sum + 0 :=
      sum_map_set (fun w : Worker ρ => w.pc.rank) s.workers i w { w with pc := .finished } hw
    have h1 : w.pc.rank = 1 := by rw [hpc]; rfl
    simp only [State.measure]
    omega
  | close =>
    obtain ⟨_, hc, _, rfl⟩ := step_close f s t h
    simp [State.measure, hc]
    omega
  | finish =>
    obtain ⟨_, hm, _, rfl⟩ := step_finish f s t h
    simp [State.measure, hm]
    omega

theorem runEvents_inv {ρ : Type} (f : Nat → String → Option ρ) (ids : List String)
    (es : List Event) (s t : State ρ) (inv : Inv f ids s) (h : runEvents f s es = some t) :
    Inv f ids t ∧ t.measure + es.length ≤ s.measure := by
  induction es generalizing s with
  | nil =>
    simp only [runEvents, Option.some.injEq] at h
    subst h
    exact ⟨inv, by simp⟩
  | cons e rest ih =>
    simp only [runEvents] at h
    cases hs : step f s e with
    | none => simp [hs] at h
    | some u =>
      rw [hs] at h
      obtain ⟨invt, hm⟩ := ih u (Inv_step f ids s u e inv hs) h
      have := step_measure f ids s u e inv hs
      exact ⟨invt, by simp only [List.length_cons]; omega⟩

theorem sum_active_eq_zero {ρ : Type} (l : List (Worker ρ))
    (h : (l.map fun w => w.active).sum = 0) : ∀ w ∈ l, w.pc = .finished := by
  induction l with
  | nil => simp
  | cons a t ih =>
    simp only [List.map_cons, List.sum_cons] at h
    intro w hw
    rcases List.mem_cons.1 hw with e | e
    · subst e
      have ha : w.active = 0 := by omega
      cases hpc : w.pc <;> simp [Worker.active, hpc] at ha
      rfl
    · exact ih (by omega) w e

theorem sum_active_of_finished {ρ : Type} (l : List (Worker ρ))
    (h : ∀ w ∈ l, w.pc = .finished) : (l.map fun w => w.active).sum = 0 := by
  induction l with
  | nil => rfl
  | cons a t ih =>
    have ha : a.active = 0 := by simp [Worker.active, h a (by simp)]
    simp [ha, ih (fun w hw => h w (List.mem_cons_of_mem _ hw))]

theorem exists_getElem?_of_mem {α : Type} (l : List α) (a : α) (h : a ∈ l) :
    ∃ i : Nat, l[i]? = some a := by
  obtain ⟨i, hi, he⟩ := List.getElem_of_mem h
  exact ⟨i, by rw [List.getElem?_eq_getElem hi, he]⟩

/-- In a reachable state in which `getAllDetails` has not returned, some action
is enabled. -/
theorem Inv_progress {ρ : Type} (f : Nat → String → Option ρ) (ids : List String)
    (s : State ρ) (inv : Inv f ids s) (hret : s.main ≠ .returned) :
    ∃ e t, step f s e = some t := by
  have hp := inv.noPanic
  cases hm : s.main with
  | returned => exact absurd hm hret
  | launching rest =>
    cases rest with
    | nil => exact ⟨.startCloser, Option.isSome_iff_exists.1 (by simp [step, hp, hm])⟩
    | cons id rest => exact ⟨.launch, Option.isSome_iff_exists.1 (by simp [step, hp, hm])⟩
  | draining =>
    by_cases hall : ∀ w ∈ s.workers, w.pc = .finished
    · have hsum := sum_active_of_finished s.workers hall
      have hwg : s.wg = 0 := by rw [inv.counter, hsum]; rfl
      cases hc : s.closer with
      | notStarted =>
        obtain ⟨rest, hr⟩ := inv.closerStarted.1 hc
        rw [hm] at hr; cases hr
      | waiting => exact ⟨.close, Option.isSome_iff_exists.1 (by simp [step, hp, hc, hwg])⟩
      | finished =>
        have hcl := inv.closedIff.2 hc
        exact ⟨.finish, Option.isSome_iff_exists.1 (by simp [step, hp, hm, hcl])⟩
    · simp only [not_forall] at hall
      obtain ⟨w, hw, hpc⟩ := hall
      obtain ⟨i, hi⟩ := exists_getElem?_of_mem s.workers w hw
      cases hk : w.pc with
      | finished => exact absurd hk hpc
      | atFetch => exact ⟨.fetch i, Option.isSome_iff_exists.1 (by simp [step, hp, hi, hk])⟩
      | atDone => exact ⟨.wgDone i, Option.isSome_iff_exists.1 (by simp [step, hp, hi, hk])⟩
      | atSend =>
        obtain ⟨d, hd⟩ := (inv.results i w hi).2.2 hk
        have hcl := inv.not_closed_of_active i w hi (by simp [Worker.active, hk])
        exact ⟨.deliver i, Option.isSome_iff_exists.1 (by simp [step, hp, hm, hcl, hi, hk, hd])⟩

/-- From every reachable state some schedule makes `getAllDetails` return. -/
theorem Inv_returns {ρ : Type} (f : Nat → String → Option ρ) (ids : List String) (n : Nat) :
    ∀ s : State ρ, s.measure ≤ n → Inv f ids s →
      ∃ es t, runEvents f s es = some t ∧ t.main = .returned := by
  induction n with
  | zero =>
    intro s hn inv
    by_cases hret : s.main = .returned
    · exact ⟨[], s, rfl, hret⟩
    · obtain ⟨e, t, ht⟩ := Inv_progress f ids s inv hret
      have := step_measure f ids s t e inv ht
      omega
  | succ n ih =>
    intro s hn inv
    by_cases hret : s.main = .returned
    · exact ⟨[], s, rfl, hret⟩
    · obtain ⟨e, t, ht⟩ := Inv_progress f ids s inv hret
      have hlt := step_measure f ids s t e inv ht
      obtain ⟨es, u, hu, hur⟩ := ih t (by omega) (Inv_step f ids s t e inv ht)
      exact ⟨e :: es, u, by simp [runEvents, ht, hu], hur⟩

theorem filterMap_detail_enumFrom {ρ : Type} (f : Nat → String → Option ρ)
    (l : List (Worker ρ)) (k : Nat)
    (h : ∀ i w, l[i]? = some w → w.detail = f (k + i) w.id) :
    l.filterMap (fun w => w.detail) =
      ((l.map fun w => w.id).enumFrom k).filterMap fun p => f p.1 p.2 := by
  induction l generalizing k with
  | nil => rfl
  | cons a t ih =>
    have ha : a.detail = f k a.id := by simpa using h 0 a (by simp)
    have ht := ih (k + 1) (fun i w hw => by
      have := h (i + 1) w (by simpa using hw)
      rw [this]; congr 1; omega)
    simp only [List.map_cons, List.enumFrom_cons, List.filterMap_cons, ha, ht]

theorem called_sublist {ρ : Type} (l : List (Worker ρ)) :
    (l.filterMap fun w => w.called).Sublist (l.map fun w => w.id) := by
  induction l with
  | nil => simp
  | cons a t ih =>
    cases hpc : a.pc with
    | atFetch =>
      have : a.called = none := by simp [Worker.called, hpc]
      simp only [List.filterMap_cons, this, List.map_cons]
      exact ih.cons _
    | atSend =>
      have : a.called = some a.id := by simp [Worker.called, hpc]
      simp only [List.filterMap_cons, this, List.map_cons]
      exact ih.cons₂ _
    | atDone =>
      have : a.called = some a.id := by simp [Worker.called, hpc]
      simp only [List.filterMap_cons, this, List.map_cons]
      exact ih.cons₂ _
    | finished =>
      have : a.called = some a.id := by simp [Worker.called, hpc]
      simp only [List.filterMap_cons, this, List.map_cons]
      exact ih.cons₂ _

theorem Inv_calls_subperm {ρ : Type} (f : Nat → String → Option ρ) (ids : List String)
    (s : State ρ) (inv : Inv f ids s) : s.calls.Subperm ids := by
  have h1 : (s.workers.filterMap fun w => w.called).Subperm (s.workers.map fun w => w.id) :=
    (called_sublist s.workers).subperm
  have h2 : (s.workers.map fun w => w.id).Subperm ids := by
    have := inv.launched
    rw [← this]
    exact (List.sublist_append_left _ _).subperm
  exact (inv.callsPerm.subperm.trans h1).trans h2

/-- What holds once `getAllDetails` has returned. -/
theorem Inv_returned {ρ : Type} (f : Nat → String → Option ρ) (ids : List String)
    (s : State ρ) (inv : Inv f ids s) (hret : s.main = .returned) :
    (s.workers.map fun w => w.id) = ids ∧ (∀ w ∈ s.workers, w.pc = .finished) ∧
      s.data.Perm (fetched f ids) ∧ s.calls.Perm ids := by
  have hids : (s.workers.map fun w => w.id) = ids := by
    have := inv.launched
    simpa [State.pending, hret] using this
  have hfin : ∀ w ∈ s.workers, w.pc = .finished := by
    apply sum_active_eq_zero
    have h0 := inv.closedZero (inv.returnedClosed hret)
    have hc := inv.counter
    rw [h0] at hc
    exact_mod_cast hc.symm
  refine ⟨hids, hfin, ?_, ?_⟩
  · have h1 : (s.workers.filterMap fun w => w.delivered) =
        s.workers.filterMap fun w => w.detail := by
      apply List.filterMap_congr
      intro w hw
      simp [Worker.delivered, hfin w hw]
    have h2 := filterMap_detail_enumFrom f s.workers 0 (fun i w hw => by
      have hne : w.pc ≠ .atFetch := by
        rw [hfin w (List.getElem?_mem hw)]; simp
      simpa using (inv.results i w hw).2.1 hne)
    rw [hids] at h2
    have := inv.dataPerm
    rw [h1, h2] at this
    exact this
  · have h1 : (s.workers.filterMap fun w => w.called) = s.workers.map fun w => w.id := by
      rw [← List.filterMap_eq_map]
      apply List.filterMap_congr
      intro w hw
      simp [Worker.called, hfin w hw]
    have := inv.callsPerm
    rw [h1, hids] at this
    exact this

theorem State.init_measure {ρ : Type} (ids : List String) :
    (State.init ids : State ρ).measure = 4 * ids.length + 3 := by
  simp [State.init, State.measure]

/-- C1: for every identifier sequence of length N handed to the fan-out loop
and every outcome of the N fetches, some schedule makes `getAllDetails` return;
no schedule panics, none can get stuck before the return, and none has more than
4N+3 actions; and when it returns, exactly N goroutines were started, each made
one fetch, and `data` is, up to order, exactly the non-nil records of the N
fetches: every element is a record some fetch returned, the size is the number
of successful fetches, at most N, and `data` is empty when every fetch failed. -/
theorem getAllDetails_collects {ρ : Type} (getDetailJob : Nat → String → Option ρ)
    (ids : List String) :
    (∃ es s, runEvents getDetailJob (State.init ids) es = some s ∧ s.main = .returned) ∧
    (∀ es s, runEvents getDetailJob (State.init ids) es = some s →
      s.panicked = none ∧ es.length ≤ 4 * ids.length + 3 ∧ s.workers.length ≤ ids.length ∧
      (s.main ≠ .returned → ∃ e t, step getDetailJob s e = some t)) ∧
    (∀ es s, runEvents getDetailJob (State.init ids) es = some s → s.main = .returned →
      s.workers.length = ids.length ∧
      s.calls.length = ids.length ∧
      s.data.Perm (fetched getDetailJob ids) ∧
      (∀ d ∈ s.data, ∃ i id, ids[i]? = some id ∧ getDetailJob i id = some d) ∧
      s.data.length = ids.enum.countP (fun p => (getDetailJob p.1 p.2).isSome) ∧
      s.data.length ≤ ids.length ∧
      ((∀ p ∈ ids.enum, getDetailJob p.1 p.2 = none) → s.data = [])) := by
  have inv0 := Inv_init getDetailJob ids
  refine ⟨?_, ?_, ?_⟩
  · exact Inv_returns getDetailJob ids _ (State.init ids) (le_refl _) inv0
  · intro es s h
    obtain ⟨inv, hm⟩ := runEvents_inv getDetailJob ids es (State.init ids) s inv0 h
    rw [State.init_measure] at hm
    refine ⟨inv.noPanic, by omega, ?_, Inv_progress getDetailJob ids s inv⟩
    have := congrArg List.length inv.launched
    simp only [List.length_append, List.length_map] at this
    omega
  · intro es s h hret
    obtain ⟨inv, _⟩ := runEvents_inv getDetailJob ids es (State.init ids) s inv0 h
    obtain ⟨hids, _, hdata, hcalls⟩ := Inv_returned getDetailJob ids s inv hret
    have hlen : s.data.length = (fetched getDetailJob ids).length := hdata.length_eq
    refine ⟨?_, ?_, hdata, ?_, ?_, ?_, ?_⟩
    · rw [← hids, List.length_map]
    · exact hcalls.length_eq
    · intro d hd
      have hd' : d ∈ fetched getDetailJob ids := hdata.mem_iff.1 hd
      obtain ⟨p, hp, hpd⟩ := List.mem_filterMap.1 hd'
      exact ⟨p.1, p.2, List.mem_enum_iff_getElem?.1 hp, hpd⟩
    · rw [hlen, fetched, List.length_filterMap_eq_countP]
    · rw [hlen, fetched]
      exact (List.length_filterMap_le _ _).trans (by simp)
    · intro hnone
      have : fetched getDetailJob ids = [] := by
        rw [fetched, List.filterMap_eq_nil_iff]
        exact hnone
      rw [this] at hdata
      exact List.perm_nil.1 hdata

/-- C1 on a schedule for three identifiers in which the second fetch fails: the
two records arrive in an order other than the start order. -/
theorem getAllDetails_collects_witness :
    runEvents exampleFetch (State.init ["a", "b", "c"]) exampleSchedule = some exampleFinal ∧
    exampleFinal.main = .returned ∧
    exampleFinal.data = [20, 0] ∧
    fetched exampleFetch ["a", "b", "c"] = [0, 20] ∧
    exampleFinal.data.Perm (fetched exampleFetch ["a", "b", "c"]) ∧
    exampleFinal.data.length = 2 ∧
    getAllDetails true ["id,vacancy_id", "1,x", "2,a", "3,b", "4,c"] exampleFetch
      exampleSchedule = some (.ok [20, 0]) :=
  ⟨rfl, rfl, rfl, rfl,
    ((getAllDetails_collects exampleFetch ["a", "b", "c"]).2.2 exampleSchedule exampleFinal
      rfl rfl).2.2.1,
    rfl, rfl⟩

/-- C5: whenever identifier loading has parsed a sequence `vacantIDs` of length
M ≥ 1 from the lines of the file, `getAllDetails` hands the fan-out loop exactly
the entries at positions 2..M (`loadIdentifiers` yields the tail); some schedule
of `getAllDetails` returns; at no point of any schedule have fetches been made
beyond those entries (each occurrence at most once); and on return
`getDetailJob` has been called exactly once per occurrence of positions 2..M and
never for position 1, M-1 calls in all, the function returning the collected
`data`. -/
theorem getAllDetails_skips_first {ρ : Type} (getDetailJob : Nat → String → Option ρ)
    (lines : List String) (log : List Msg) (vacantIDs : List String)
    (hload : loadVacantIDs lines = (log, .ok vacantIDs)) (hM : 1 ≤ vacantIDs.length) :
    loadIdentifiers lines = (log, .ok vacantIDs.tail) ∧
    sliceFrom 1 vacantIDs = .ok vacantIDs.tail ∧
    vacantIDs.tail.length = vacantIDs.length - 1 ∧
    (∀ j : Nat, vacantIDs.tail[j]? = vacantIDs[j + 1]?) ∧
    (∃ schedule s, getAllDetailsRun lines getDetailJob schedule = some s ∧
      s.main = .returned ∧
      getAllDetails true lines getDetailJob schedule = some (.ok s.data)) ∧
    (∀ schedule s, getAllDetailsRun lines getDetailJob schedule = some s →
      s.calls.Subperm vacantIDs.tail ∧
      (s.main = .returned →
        (s.workers.map fun w => w.id) = vacantIDs.tail ∧
        s.calls.Perm vacantIDs.tail ∧
        s.calls.length = vacantIDs.length - 1 ∧
        getAllDetails true lines getDetailJob schedule = some (.ok s.data))) := by
  have hids : loadIdentifiers lines = (log, .ok vacantIDs.tail) := by
    simp [loadIdentifiers, hload, discardFirst, sliceFrom, hM]
  have hrunEq : ∀ schedule, getAllDetailsRun lines getDetailJob schedule =
      runEvents getDetailJob (State.init vacantIDs.tail) schedule := by
    intro schedule
    simp [getAllDetailsRun, hids]
  have hresult : ∀ schedule (s : State ρ),
      getAllDetailsRun lines getDetailJob schedule = some s → s.panicked = none →
      s.main = .returned →
      getAllDetails true lines getDetailJob schedule = some (.ok s.data) := by
    intro schedule s hrun hp hret
    simp [getAllDetails, hids, hrun, hp, hret]
  have inv0 := Inv_init getDetailJob vacantIDs.tail
  refine ⟨hids, ?_, by simp, ?_, ?_, ?_⟩
  · simp [sliceFrom, hM]
  · intro j
    cases vacantIDs with
    | nil => simp at hM
    | cons a t => simp
  · obtain ⟨es, s, hs, hret⟩ :=
      Inv_returns getDetailJob _ _ (State.init vacantIDs.tail) (le_refl _) inv0
    have hrun : getAllDetailsRun lines getDetailJob es = some s := by
      rw [hrunEq]; exact hs
    obtain ⟨inv, _⟩ := runEvents_inv getDetailJob _ es (State.init vacantIDs.tail) s inv0 hs
    exact ⟨es, s, hrun, hret, hresult es s hrun inv.noPanic hret⟩
  · intro es s hrun
    have h : runEvents getDetailJob (State.init vacantIDs.tail) es = some s := by
      rw [← hrunEq]; exact hrun
    obtain ⟨inv, _⟩ := runEvents_inv getDetailJob _ es (State.init vacantIDs.tail) s inv0 h
    refine ⟨Inv_calls_subperm getDetailJob _ s inv, fun hret => ?_⟩
    obtain ⟨hw, _, _, hcalls⟩ := Inv_returned getDetailJob _ s inv hret
    exact ⟨hw, hcalls, by rw [hcalls.length_eq]; simp, hresult es s hrun inv.noPanic hret⟩

/-- C5 at the file `id,vacancy_id` / `1,x` / `2,a` / `3,b` / `4,c`: the parsed
sequence is `x`, `a`, `b`, `c`, the loop is handed `a`, `b`, `c`, the three
goroutines fetch `b`, `a`, `c`, and `x` is not fetched. -/
theorem getAllDetails_skips_first_witness :
    loadVacantIDs ["id,vacancy_id", "1,x", "2,a", "3,b", "4,c"] =
      ([Msg.header ["id", "vacancy_id"]], .ok ["x", "a", "b", "c"]) ∧
    1 ≤ ["x", "a", "b", "c"].length ∧
    loadIdentifiers ["id,vacancy_id", "1,x", "2,a", "3,b", "4,c"] =
      ([Msg.header ["id", "vacancy_id"]], .ok ["a", "b", "c"]) ∧
    getAllDetailsRun ["id,vacancy_id", "1,x", "2,a", "3,b", "4,c"] exampleFetch
      exampleSchedule = some exampleFinal ∧
    exampleFinal.calls = ["b", "a", "c"] ∧
    exampleFinal.calls.Perm ["a", "b", "c"] ∧
    getAllDetails true ["id,vacancy_id", "1,x", "2,a", "3,b", "4,c"] exampleFetch
      exampleSchedule = some (.ok [20, 0]) :=
  ⟨rfl, by decide,
    (getAllDetails_skips_first exampleFetch ["id,vacancy_id", "1,x", "2,a", "3,b", "4,c"]
      [Msg.header ["id", "vacancy_id"]] ["x", "a", "b", "c"] rfl (by decide)).1,
    rfl, rfl,
    (((getAllDetails_skips_first exampleFetch ["id,vacancy_id", "1,x", "2,a", "3,b", "4,c"]
      [Msg.header ["id", "vacancy_id"]] ["x", "a", "b", "c"] rfl (by decide)).2.2.2.2.2
      exampleSchedule exampleFinal rfl).2 rfl).2.1,
    rfl⟩

end Rekber
